import Mathlib

/-!
Shallow embedding of `src/flashcards/flashcards.py` (elliott-king/flashcards).

Python strings are modelled as `List Char`.  Widths and heights are modelled
as `Int` (Python integers), with Python's negative-width behaviours kept
(`str.center` returns the string unchanged when `width <= len`,
`textwrap.wrap` raises `ValueError` when `width <= 0`, list repetition by a
negative count gives `[]`).  Fallible code (`textwrap.wrap` with a
non-positive width, `get_keywords` on a `None` keywords attribute) returns
`Except`.  The `textwrap` standard-library machinery used by `format_data`
(whitespace munging, the `wordsep_re` chunk splitter with its hyphen and
em-dash rules, `_wrap_chunks` with `drop_whitespace`, `break_long_words` and
`break_on_hyphens`, and `_handle_long_word`) is embedded for the ASCII
character ranges the card data uses.
-/

deriving instance DecidableEq for Except

namespace Flashcards

abbrev PyStr := List Char

/-- The six characters of `textwrap._whitespace` = `'\t\n\x0b\x0c\r '`,
which is also what `str.split()` treats as whitespace for ASCII input. -/
def isWS (c : Char) : Bool :=
  c == ' ' || c == '\t' || c == '\n' || c == '\x0b' || c == '\x0c' || c == '\r'

/-- Python regex `\w` (ASCII range): alphanumeric or underscore. -/
def isWordChar (c : Char) : Bool := c.isAlphanum || c == '_'

/-- `letter = [^\d\W]` in `textwrap`: a word character that is not a digit. -/
def isLT (c : Char) : Bool := isWordChar c && !c.isDigit

/-- `word_punct = [\w!"\'&.,?]` in `textwrap`. -/
def isWP (c : Char) : Bool :=
  isWordChar c || c == '!' || c == '"' || c == '\'' || c == '&' ||
    c == '.' || c == ',' || c == '?'

/-- Accumulator-passing core of Python `str.split()` (no separator):
split on runs of whitespace, discarding empty tokens.  `cur` holds the
characters of the current token in reverse. -/
def pySplitGo (cur : List Char) : List Char → List (List Char)
  | [] => if cur.isEmpty then [] else [cur.reverse]
  | c :: rest =>
    if isWS c then
      if cur.isEmpty then pySplitGo [] rest else cur.reverse :: pySplitGo [] rest
    else
      pySplitGo (c :: cur) rest

/-- Python `str.split()` with no arguments. -/
def pySplit (s : List Char) : List (List Char) := pySplitGo [] s

/-- Python `sep.join(parts)`. -/
def pyJoin (sep : List Char) : List (List Char) → List Char
  | [] => []
  | [p] => p
  | p :: q :: rest => p ++ sep ++ pyJoin sep (q :: rest)

/-- Python `s.replace(old, new)` for single-character `old` and `new`. -/
def pyReplaceChar (s : List Char) (old new : Char) : List Char :=
  s.map (fun c => if c == old then new else c)

/-- Python `str.expandtabs(8)`: `col` is the current column, reset by
newline and carriage return, and each tab pads to the next multiple of 8. -/
def expandTabsGo (col : Nat) : List Char → List Char
  | [] => []
  | c :: rest =>
    if c == '\t' then
      let incr := 8 - col % 8
      List.replicate incr ' ' ++ expandTabsGo (col + incr) rest
    else if c == '\n' || c == '\r' then
      c :: expandTabsGo 0 rest
    else
      c :: expandTabsGo (col + 1) rest

/-- `TextWrapper._munge_whitespace`: expand tabs, then translate every
whitespace character to a plain space. -/
def mungeWhitespace (s : List Char) : List Char :=
  (expandTabsGo 0 s).map (fun c => if isWS c then ' ' else c)

/-- Length of the leading run of hyphens. -/
def hyRun (s : List Char) : Nat := (s.takeWhile (· == '-')).length

/-- Lookahead `(?= lt -? lt)` of the hyphenated-word alternative of
`textwrap.wordsep_re`: a letter, then either a hyphen followed by a letter
(greedy `-?`) or directly a letter. -/
def lookA : List Char → Bool
  | a :: rest =>
    isLT a &&
      ((match rest with
        | e :: b :: _ => e == '-' && isLT b
        | _ => false) ||
       (match rest with
        | b :: _ => isLT b
        | _ => false))
  | [] => false

/-- Lookbehind `(?<= lt lt -)` or `(?<= lt - lt -)` of the hyphenated-word
alternative; `rp` is the reversed list of all characters already consumed
(so its head is the character just consumed, which must be the hyphen). -/
def behindA : List Char → Bool
  | d :: rest =>
    d == '-' &&
      ((match rest with
        | a :: b :: _ => isLT a && isLT b
        | _ => false) ||
       (match rest with
        | a :: e :: b :: _ => isLT a && e == '-' && isLT b
        | _ => false))
  | [] => false

/-- Stop condition "hyphenated word": the character just consumed is a
hyphen in the right letter context and the lookahead matches. -/
def stopA (rp rest : List Char) : Bool := behindA rp && lookA rest

/-- Stop condition "end of word": `(?= ws | \Z)`. -/
def stopB (rest : List Char) : Bool :=
  match rest with
  | [] => true
  | c :: _ => isWS c

/-- Stop condition "em-dash follows": `(?<= wp) (?= -{2,} \w)`. -/
def stopC (rp rest : List Char) : Bool :=
  (match rp with
   | c :: _ => isWP c
   | [] => false) &&
  (let n := hyRun rest
   decide (2 ≤ n) &&
     (match rest.drop n with
      | d :: _ => isWordChar d
      | [] => false))

/-- The lazy `nws+?` word alternative of `wordsep_re`: consume non-space
characters one at a time, stopping as soon as one of the three end
conditions holds.  Returns the consumed chunk, the updated reversed
context, and the remaining input. -/
def wordGo (rp acc : List Char) : List Char → List Char × List Char × List Char
  | [] => (acc.reverse, rp, [])
  | c :: rest =>
    let rp' := c :: rp
    let acc' := c :: acc
    if stopA rp' rest || stopB rest || stopC rp' rest then
      (acc'.reverse, rp', rest)
    else
      wordGo rp' acc' rest

/-- One pass of `wordsep_re` scanning: at each position try, in order, a
whitespace run, an em-dash run `(?<= wp) -{2,} (?= \w)`, then the lazy word
alternative.  `fuel` bounds the number of chunks produced; the caller
passes `length + 1`, which suffices since every chunk is nonempty. -/
def splitGo : Nat → List Char → List Char → List (List Char)
  | 0, _, _ => []
  | _ + 1, _, [] => []
  | fuel + 1, rp, c :: rest =>
    if isWS c then
      let chunk := c :: rest.takeWhile isWS
      chunk :: splitGo fuel (chunk.reverse ++ rp) (rest.dropWhile isWS)
    else
      let s := c :: rest
      let n := hyRun s
      if 2 ≤ n &&
          (match s.drop n with
           | d :: _ => isWordChar d
           | [] => false) &&
          (match rp with
           | p :: _ => isWP p
           | [] => false) then
        let chunk := s.take n
        chunk :: splitGo fuel (chunk.reverse ++ rp) (s.drop n)
      else
        let w := wordGo rp [] s
        w.1 :: splitGo fuel w.2.1 w.2.2

/-- `TextWrapper._split` with `break_on_hyphens = True` (the default):
split munged text into wrappable chunks. -/
def splitChunks (s : List Char) : List (List Char) :=
  splitGo (s.length + 1) [] s

/-- Python `chunk.rfind('-', 0, hi)` restricted to the slice already taken:
index of the last hyphen of `s`, if any. -/
def rfindHy (s : List Char) : Option Nat :=
  match s.reverse.findIdx? (· == '-') with
  | none => none
  | some j => some (s.length - 1 - j)

/-- Where `_handle_long_word` cuts the long chunk: at the last hyphen
within the remaining space (if suitably preceded by non-hyphens), else at
the remaining space itself. -/
def longStop (spaceLeft : Nat) (chunk : List Char) : Nat :=
  if decide (spaceLeft < chunk.length) then
    match rfindHy (chunk.take spaceLeft) with
    | some hy =>
      if 0 < hy && (chunk.take hy).any (· != '-') then hy + 1 else spaceLeft
    | none => spaceLeft
  else spaceLeft

/-- `TextWrapper._handle_long_word` with `break_long_words = True` and
`break_on_hyphens = True`: split off the piece of the long chunk that goes
on the current line, and the remainder. -/
def handleLongWord (W curLen : Nat) (chunk : List Char) : List Char × List Char :=
  let spaceLeft := if W < 1 then 1 else W - curLen
  (chunk.take (longStop spaceLeft chunk), chunk.drop (longStop spaceLeft chunk))

/-- The inner `while` of `_wrap_chunks`: greedily move chunks onto the
current line while they fit.  Returns the chunks taken, the resulting line
length, and the remaining chunks. -/
def takeGreedy (W : Nat) : Nat → List PyStr → List PyStr × Nat × List PyStr
  | curLen, [] => ([], curLen, [])
  | curLen, c :: rest =>
    if curLen + c.length ≤ W then
      let r := takeGreedy W (curLen + c.length) rest
      (c :: r.1, r.2.1, r.2.2)
    else ([], curLen, c :: rest)

/-- `if self.drop_whitespace and cur_line and cur_line[-1].strip() == ''`:
drop the last element of the current line when it is all whitespace. -/
def dropTrailingWS (line : List PyStr) : List PyStr :=
  match line.getLast? with
  | some last => if last.all isWS then line.dropLast else line
  | none => line

/-- `if self.drop_whitespace and chunks[-1].strip() == '' and lines:`:
drop the leading chunk when it is all whitespace and a line was already
emitted (`accNonempty` is Python's `if lines:`). -/
def dropLeadingWS (accNonempty : Bool) (chunks : List PyStr) : List PyStr :=
  match chunks with
  | c :: cs => if c.all isWS && accNonempty then cs else c :: cs
  | [] => []

/-- After the greedy inner loop: if the next chunk is too big to fit on any
line, split it with `_handle_long_word`; returns the current line's chunks
and the remaining chunks. -/
def afterLongStep (W : Nat) (g : List PyStr × Nat × List PyStr) :
    List PyStr × List PyStr :=
  match g.2.2 with
  | c :: cs =>
    if W < c.length then
      let h := handleLongWord W g.2.1 c
      (g.1 ++ [h.1], h.2 :: cs)
    else (g.1, c :: cs)
  | [] => (g.1, [])

/-- One iteration of the outer `while chunks` loop of `_wrap_chunks`
(defaults: `drop_whitespace`, `break_long_words`, `break_on_hyphens` all
true, no indents, `max_lines = None`).  Returns the emitted line, if any,
and the remaining chunks. -/
def wrapStep (W : Nat) (accNonempty : Bool) (chunks : List PyStr) :
    Option PyStr × List PyStr :=
  let a := afterLongStep W (takeGreedy W 0 (dropLeadingWS accNonempty chunks))
  let curLine := dropTrailingWS a.1
  (if curLine.isEmpty then none else some curLine.flatten, a.2)

/-- The outer loop of `_wrap_chunks`, with accumulated lines kept in
reverse.  `fuel` bounds the number of iterations; each iteration removes at
least one chunk or shortens the chunk material, so the caller's
`number of chunks + total characters + 1` always suffices. -/
def wrapGo (W : Nat) : Nat → List PyStr → List PyStr → List PyStr
  | 0, _, acc => acc.reverse
  | _ + 1, [], acc => acc.reverse
  | fuel + 1, c :: cs, acc =>
    match wrapStep W (!acc.isEmpty) (c :: cs) with
    | (some l, rest) => wrapGo W fuel rest (l :: acc)
    | (none, rest) => wrapGo W fuel rest acc

/-- `textwrap.wrap(text, width)` with the default `TextWrapper` options:
munge whitespace, split into chunks, and wrap greedily.  A non-positive
width raises `ValueError` in Python, modelled as `Except.error`. -/
def pyWrap (text : List Char) (width : Int) : Except String (List PyStr) :=
  if width ≤ 0 then Except.error ("invalid width (must be > 0)")
  else
    let chunks := splitChunks (mungeWhitespace text)
    Except.ok (wrapGo width.toNat (chunks.length + (chunks.map List.length).sum + 1) chunks [])

/-- `Flashcard.format_data(line, max_length)`: collapse whitespace with
`' '.join(line.split())`, apply the (vacuous) `replace` calls, and wrap to
width `max_length - 5`. -/
def format_data (line : PyStr) (max_length : Int) : Except String (List PyStr) :=
  let collapsed := pyJoin [' '] (pySplit line)
  let words_in_line := pyReplaceChar (pyReplaceChar collapsed '\n' ' ') '\t' ' '
  pyWrap words_in_line (max_length - 5)

/-- Python `s.center(width, fill)`: unchanged when `width <= len(s)`;
otherwise the margin splits as `left = marg // 2 + (marg & width & 1)`
(CPython `unicode_center`). -/
def pyCenter (s : PyStr) (width : Int) (fill : Char) : PyStr :=
  if width ≤ (s.length : Int) then s
  else
    let marg := (width - s.length).toNat
    let left := marg / 2 + (marg &&& width.toNat &&& 1)
    List.replicate left fill ++ s ++ List.replicate (marg - left) fill

/-- `Flashcard.style_on_line(line, max_length, border)`: center within
`max_length - 2` with spaces, then within `max_length` with the border. -/
def style_on_line (line : PyStr) (max_length : Int) (border : Char := '*') : PyStr :=
  pyCenter (pyCenter line (max_length - 2) ' ') max_length border

/-- Module-level defaults `MAX_WIDTH = 70`, `MIN_CONTENT_HEIGHT = 6`,
`BORDER = '*'`. -/
def MAX_WIDTH : Int := 70

def MIN_CONTENT_HEIGHT : Int := 6

def BORDER : Char := '*'

/-- The `Flashcard` class: topic/content/keywords plus layout parameters
and the visibility flag `hide_content`. -/
structure Flashcard where
  max_card_width : Int
  min_content_height : Int
  topic : PyStr
  content : PyStr
  keywords : Option PyStr
  hide_content : Bool
deriving DecidableEq, Repr

/-- `Flashcard.__init__`: stores the fields and starts hidden
(`hide_content = True`). -/
def mkFlashcard (topic content : PyStr) (keywords : Option PyStr := none)
    (max_card_width : Int := MAX_WIDTH)
    (min_content_height : Int := MIN_CONTENT_HEIGHT) : Flashcard :=
  { max_card_width := max_card_width
    min_content_height := min_content_height
    topic := topic
    content := content
    keywords := keywords
    hide_content := true }

/-- `Flashcard.get_topic`: a blank line, the wrapped topic, a blank line,
all styled. -/
def get_topic (fc : Flashcard) : Except String (List PyStr) := do
  let t ← format_data fc.topic fc.max_card_width
  let topic_lines := [[]] ++ t ++ [[]]
  pure (topic_lines.map (fun l => style_on_line l fc.max_card_width))

/-- The hidden-state placeholder string `'Press [Enter] to show content'`. -/
def initial_content : PyStr :=
  [ 'P', 'r', 'e', 's', 's', ' ', '[', 'E', 'n', 't', 'e', 'r', ']', ' ',
    't', 'o', ' ', 's', 'h', 'o', 'w', ' ', 'c', 'o', 'n', 't', 'e', 'n', 't' ]

/-- `Flashcard.get_content`: blank line, placeholder or real content, blank
line, then padding up to `max(min_content_height, expected_height,
current_height)` where `expected_height` is the wrapped content line count
and `current_height` the unpadded block height. -/
def get_content (fc : Flashcard) : Except String (List PyStr) := do
  let formatted_content ← format_data fc.content fc.max_card_width
  let shown ←
    if fc.hide_content then
      format_data initial_content fc.max_card_width
    else
      pure formatted_content
  let content_lines := [[]] ++ shown ++ [[]]
  let current_height : Int := content_lines.length
  let expected_height : Int := formatted_content.length
  let min_height := fc.min_content_height
  let height₁ := if expected_height > min_height then expected_height else min_height
  let height₂ := if current_height > height₁ then current_height else height₁
  let padded := content_lines ++ List.replicate (height₂ - current_height).toNat []
  pure (padded.map (fun l => style_on_line l fc.max_card_width))

/-- `Flashcard.get_keywords`: like `get_topic` but from `keywords`; calling
it with `keywords = None` would raise `AttributeError` in Python. -/
def get_keywords (fc : Flashcard) : Except String (List PyStr) := do
  match fc.keywords with
  | none => Except.error ("AttributeError: NoneType has no attribute split")
  | some k =>
    let t ← format_data k fc.max_card_width
    let topic_lines := [[]] ++ t ++ [[]]
    pure (topic_lines.map (fun l => style_on_line l fc.max_card_width))

/-- Python truthiness of the optional `keywords` string: `None` and the
empty string are falsy. -/
def kwTruthy : Option PyStr → Bool
  | none => false
  | some k => !k.isEmpty

/-- `Flashcard.get_lines_to_draw(border)`: newline marker, border line,
topic block, two border lines, content block, optionally (when
`self.keywords` is truthy) two border lines and the keywords block, and a
final border line. -/
def get_lines_to_draw (fc : Flashcard) (border : Char := BORDER) :
    Except String (List PyStr) := do
  let horizontal_border : PyStr := List.replicate fc.max_card_width.toNat border
  let t ← get_topic fc
  let c ← get_content fc
  let kwPart ←
    if kwTruthy fc.keywords then do
      let k ← get_keywords fc
      pure ([horizontal_border, horizontal_border] ++ k)
    else
      pure []
  pure ([['\n']] ++ [horizontal_border] ++ t ++ [horizontal_border, horizontal_border]
          ++ c ++ kwPart ++ [horizontal_border])

/-- `Flashcard.draw`: compute the lines (any exception propagates before
the toggle), print them, then flip `hide_content`. -/
def draw (fc : Flashcard) : Except String (List PyStr × Flashcard) := do
  let lines ← get_lines_to_draw fc
  pure (lines, { fc with hide_content := !fc.hide_content })

/-- Stateful views of the pure renderers: each Python method receives
`self` and performs no attribute assignment, so the returned state is the
input state.  (`draw` is the only mutator.) -/
def get_topicS (fc : Flashcard) : Except String (List PyStr) × Flashcard :=
  (get_topic fc, fc)

def get_contentS (fc : Flashcard) : Except String (List PyStr) × Flashcard :=
  (get_content fc, fc)

def get_keywordsS (fc : Flashcard) : Except String (List PyStr) × Flashcard :=
  (get_keywords fc, fc)

def get_lines_to_drawS (fc : Flashcard) : Except String (List PyStr) × Flashcard :=
  (get_lines_to_draw fc, fc)

/-- Observable terminal events of a session: clearing the screen, printing
a card's lines, and the blocking `input()` acknowledgment. -/
inductive Event where
  | clear : Event
  | drawLines : List PyStr → Event
  | readAck : Event
deriving DecidableEq, Repr

/-- `Flashcard.run`: clear the terminal, then draw. -/
def runCard (fc : Flashcard) : Except String (List Event × Flashcard) := do
  let d ← draw fc
  pure ([Event.clear, Event.drawLines d.1], d.2)

/-- One card's two-phase session: `fc.run(); input()` twice
(the body of the loops in `run_flashcards`). -/
def cardSession (fc : Flashcard) : Except String (List Event × Flashcard) := do
  let r₁ ← runCard fc
  let r₂ ← runCard r₁.2
  pure (r₁.1 ++ [Event.readAck] ++ r₂.1 ++ [Event.readAck], r₂.2)

/-- The per-card loop of `run_flashcards` over an already-ordered list. -/
def runAllCards : List Flashcard → Except String (List Event)
  | [] => Except.ok []
  | fc :: rest => do
    let s ← cardSession fc
    let more ← runAllCards rest
    pure (s.1 ++ more)

/-- `run_flashcards(flashcards, ordered)`: when `ordered` is false the list
is shuffled first; `random.shuffle` is modelled by an arbitrary
permutation function `shuffle` supplied as a parameter. -/
def run_flashcards (shuffle : List Flashcard → List Flashcard)
    (flashcards : List Flashcard) (ordered : Bool) : Except String (List Event) :=
  runAllCards (if ordered then flashcards else shuffle flashcards)

/-- Python `s.strip(c)` for a single strip character: remove all leading
and trailing occurrences of `c`. -/
def pyStripChar (s : List Char) (c : Char) : List Char :=
  (((s.dropWhile (· == c)).reverse).dropWhile (· == c)).reverse

/-- The lines `draw` would print, with `[]` for the exceptional case; used
only to phrase trace statements without an inner `Except`. -/
def lines_or_empty (fc : Flashcard) : List PyStr :=
  match get_lines_to_draw fc with
  | Except.ok ls => ls
  | Except.error _ => []

/-- Words interleaved with the single-space chunks `wordsep_re` produces
between them. -/
def interleaveSp : List (List Char) → List (List Char)
  | [] => []
  | [w] => [w]
  | w :: v :: rest => w :: [' '] :: interleaveSp (v :: rest)

/-- A word chunk that never triggers long-word breaking at width `W`:
nonempty, at most `W` characters, no whitespace. -/
def goodW (W : Nat) (w : List Char) : Prop :=
  w ≠ [] ∧ w.length ≤ W ∧ ∀ c ∈ w, isWS c = false

/-- Concrete card used by the height/toggle counterexamples: width 10 and
minimum content height 0, so the revealed content block (3 lines) is
shorter than the hidden one (8 lines, driven by the wrapped placeholder). -/
def cardA : Flashcard := mkFlashcard (("t").data) (("a b").data) none 10 0

/-- The end-to-end card of the specification's testable-properties section. -/
def cardB : Flashcard :=
  mkFlashcard (("Capital of France").data) (("Paris").data) (some (("geography").data))

/-- A card whose `keywords` is present but empty, hence falsy. -/
def cardC : Flashcard := mkFlashcard (("t").data) (("c").data) (some []) 10 6

/-! Basic lemmas about the `Except` monad and the card operations. -/

@[simp] theorem ok_bind {ε α β : Type} (a : α) (f : α → Except ε β) :
    (Except.ok a : Except ε α) >>= f = f a := rfl

@[simp] theorem error_bind {ε α β : Type} (e : ε) (f : α → Except ε β) :
    (Except.error e : Except ε α) >>= f = Except.error e := rfl

@[simp] theorem pure_eq_ok {ε α : Type} (a : α) :
    (pure a : Except ε α) = Except.ok a := rfl

theorem eta_hide_content (fc : Flashcard) :
    { fc with hide_content := fc.hide_content } = fc := by
  cases fc
  rfl

theorem pyWrap_ok (t : List Char) (w : Int) (hw : 0 < w) :
    pyWrap t w =
      Except.ok (wrapGo w.toNat
        ((splitChunks (mungeWhitespace t)).length +
          ((splitChunks (mungeWhitespace t)).map List.length).sum + 1)
        (splitChunks (mungeWhitespace t)) []) := by
  unfold pyWrap
  rw [if_neg (by omega)]

theorem format_data_isOk (line : PyStr) (max_length : Int) (h : 6 ≤ max_length) :
    ∃ ls, format_data line max_length = Except.ok ls := by
  unfold format_data
  exact ⟨_, pyWrap_ok _ _ (by omega)⟩

theorem get_topic_isOk (fc : Flashcard) (h : 6 ≤ fc.max_card_width) :
    ∃ t, get_topic fc = Except.ok t := by
  obtain ⟨ls, hls⟩ := format_data_isOk fc.topic fc.max_card_width h
  exact ⟨_, by simp only [get_topic, hls, ok_bind, pure_eq_ok]; rfl⟩

theorem get_content_isOk (fc : Flashcard) (h : 6 ≤ fc.max_card_width) :
    ∃ c, get_content fc = Except.ok c := by
  obtain ⟨F, hF⟩ := format_data_isOk fc.content fc.max_card_width h
  obtain ⟨P, hP⟩ := format_data_isOk initial_content fc.max_card_width h
  cases hh : fc.hide_content <;>
    exact ⟨_, by simp only [get_content, hF, hP, hh, ok_bind, pure_eq_ok,
      Bool.false_eq_true, if_false, if_true]; rfl⟩

theorem get_content_hidden_len (fc : Flashcard) (F P : List PyStr)
    (hh : fc.hide_content = true)
    (hF : format_data fc.content fc.max_card_width = Except.ok F)
    (hP : format_data initial_content fc.max_card_width = Except.ok P) :
    ∃ C, get_content fc = Except.ok C ∧
      (C.length : Int) =
        max (max (F.length : Int) fc.min_content_height) ((P.length : Int) + 2) := by
  refine ⟨_, by simp only [get_content, hF, hP, hh, ok_bind, pure_eq_ok, if_true]; rfl, ?_⟩
  simp only [List.length_map, List.length_append, List.length_replicate,
    List.length_cons, List.length_nil]
  push_cast
  split_ifs <;> omega

theorem get_content_shown_len (fc : Flashcard) (F : List PyStr)
    (hh : fc.hide_content = false)
    (hF : format_data fc.content fc.max_card_width = Except.ok F) :
    ∃ C, get_content fc = Except.ok C ∧
      (C.length : Int) =
        max (max (F.length : Int) fc.min_content_height) ((F.length : Int) + 2) := by
  refine ⟨_, by simp only [get_content, hF, hh, ok_bind, pure_eq_ok,
    Bool.false_eq_true, if_false]; rfl, ?_⟩
  simp only [List.length_map, List.length_append, List.length_replicate,
    List.length_cons, List.length_nil]
  push_cast
  split_ifs <;> omega

theorem get_keywords_isOk (fc : Flashcard) (k : PyStr) (h6 : 6 ≤ fc.max_card_width)
    (hk : fc.keywords = some k) :
    ∃ r, get_keywords fc = Except.ok r := by
  obtain ⟨ls, hls⟩ := format_data_isOk k fc.max_card_width h6
  exact ⟨_, by simp only [get_keywords, hk, hls, ok_bind, pure_eq_ok]; rfl⟩

/-- Inversion of a successful `get_lines_to_draw`: the produced lines have
the fixed newline-marker / border / topic / border,border / content /
(optional border,border,keywords) / border shape. -/
theorem get_lines_inv (fc : Flashcard) (b : Char) (L : List PyStr)
    (h : get_lines_to_draw fc b = Except.ok L) :
    ∃ t c kwp, get_topic fc = Except.ok t ∧ get_content fc = Except.ok c ∧
      L = [['\n']] ++ [List.replicate fc.max_card_width.toNat b] ++ t ++
        [List.replicate fc.max_card_width.toNat b,
         List.replicate fc.max_card_width.toNat b] ++ c ++ kwp ++
        [List.replicate fc.max_card_width.toNat b] ∧
      ((kwTruthy fc.keywords = true ∧ ∃ k, get_keywords fc = Except.ok k ∧
          kwp = [List.replicate fc.max_card_width.toNat b,
                 List.replicate fc.max_card_width.toNat b] ++ k) ∨
       (kwTruthy fc.keywords = false ∧ kwp = [])) := by
  simp only [get_lines_to_draw] at h
  cases ht : get_topic fc with
  | error e => rw [ht] at h; simp at h
  | ok t =>
    cases hc : get_content fc with
    | error e => rw [ht, hc] at h; simp at h
    | ok c =>
    rw [ht, hc] at h
    simp only [ok_bind] at h
    cases hkw : kwTruthy fc.keywords with
    | true =>
      rw [hkw] at h
      simp only [if_true] at h
      cases hk : get_keywords fc with
      | error e => rw [hk] at h; simp at h
      | ok k =>
        rw [hk] at h
        simp only [ok_bind, pure_eq_ok, Except.ok.injEq] at h
        exact ⟨t, c, _, rfl, rfl, h.symm, Or.inl ⟨rfl, k, rfl, rfl⟩⟩
    | false =>
      rw [hkw] at h
      simp only [Bool.false_eq_true, if_false, ok_bind, pure_eq_ok,
        Except.ok.injEq] at h
      exact ⟨t, c, [], rfl, rfl, by simp [← h], Or.inr ⟨rfl, rfl⟩⟩

/-- **C9.** The keywords block is governed by Python truthiness: a card
whose `keywords` is the empty string renders exactly like one whose
`keywords` is `None` — the block and its two preceding border lines are
omitted in both, even though the field is present in the first. -/
theorem c9_empty_keywords (fc : Flashcard) (b : Char) :
    get_lines_to_draw { fc with keywords := some [] } b =
      get_lines_to_draw { fc with keywords := none } b := rfl

/-- Success form of the render structure: for a card whose width admits
wrapping, `get_lines_to_draw` succeeds and has the documented shape, with
the keywords section present exactly when `keywords` is truthy. -/
theorem get_lines_structure (fc : Flashcard) (b : Char) (h6 : 6 ≤ fc.max_card_width) :
    ∃ L, get_lines_to_draw fc b = Except.ok L := by
  obtain ⟨t, ht⟩ := get_topic_isOk fc h6
  obtain ⟨c, hc⟩ := get_content_isOk fc h6
  cases hkw : kwTruthy fc.keywords with
  | true =>
    have hsome : ∃ k, fc.keywords = some k := by
      cases hks : fc.keywords with
      | none => rw [hks] at hkw; simp [kwTruthy] at hkw
      | some k => exact ⟨k, rfl⟩
    obtain ⟨k, hks⟩ := hsome
    obtain ⟨r, hr⟩ := get_keywords_isOk fc k h6 hks
    exact ⟨_, by simp only [get_lines_to_draw, ht, hc, hkw, hr, ok_bind,
      pure_eq_ok, if_true]; rfl⟩
  | false =>
    exact ⟨_, by simp only [get_lines_to_draw, ht, hc, hkw, ok_bind,
      pure_eq_ok, Bool.false_eq_true, if_false]; rfl⟩

/-- **C1** (amended).  For a fixed card whose width admits wrapping, the
content block's line count is `max(min_content_height, E, current)` where
`E` is the wrapped-content line count and `current` the unpadded block
height (shown lines + 2): hidden gives `max(max(E, m), P + 2)` and
revealed gives `max(max(E, m), E + 2)` with `P` the wrapped placeholder
line count.  The two counts agree whenever both `E + 2` and `P + 2` are at
most `min_content_height`, but (contrary to the original claim) not in
general: revealed content taller than `min_content_height - 2` makes the
revealed block strictly taller. -/
theorem c1_content_block_height (fc : Flashcard) (F P : List PyStr)
    (hF : format_data fc.content fc.max_card_width = Except.ok F)
    (hP : format_data initial_content fc.max_card_width = Except.ok P) :
    ∃ H R,
      get_content { fc with hide_content := true } = Except.ok H ∧
      get_content { fc with hide_content := false } = Except.ok R ∧
      (H.length : Int) =
        max (max (F.length : Int) fc.min_content_height) ((P.length : Int) + 2) ∧
      (R.length : Int) =
        max (max (F.length : Int) fc.min_content_height) ((F.length : Int) + 2) ∧
      ((F.length : Int) + 2 ≤ fc.min_content_height →
        (P.length : Int) + 2 ≤ fc.min_content_height → H.length = R.length) := by
  obtain ⟨H, hH, hHlen⟩ :=
    get_content_hidden_len { fc with hide_content := true } F P rfl hF hP
  obtain ⟨R, hR, hRlen⟩ :=
    get_content_shown_len { fc with hide_content := false } F rfl hF
  have hHlen' : (H.length : Int) =
      max (max (F.length : Int) fc.min_content_height) ((P.length : Int) + 2) := hHlen
  have hRlen' : (R.length : Int) =
      max (max (F.length : Int) fc.min_content_height) ((F.length : Int) + 2) := hRlen
  exact ⟨H, R, hH, hR, hHlen', hRlen', fun h₁ h₂ => by omega⟩

/-- **C1** witness: the spec's end-to-end card (width 70, min height 6,
one-line content and placeholder) where both blocks have 6 lines. -/
theorem c1_content_block_height_witness :
    ∃ F P, format_data cardB.content cardB.max_card_width = Except.ok F ∧
      format_data initial_content cardB.max_card_width = Except.ok P ∧
      ∃ H R,
        get_content { cardB with hide_content := true } = Except.ok H ∧
        get_content { cardB with hide_content := false } = Except.ok R ∧
        (H.length : Int) =
          max (max (F.length : Int) cardB.min_content_height) ((P.length : Int) + 2) ∧
        (R.length : Int) =
          max (max (F.length : Int) cardB.min_content_height) ((F.length : Int) + 2) ∧
        ((F.length : Int) + 2 ≤ cardB.min_content_height →
          (P.length : Int) + 2 ≤ cardB.min_content_height → H.length = R.length) := by
  refine ⟨[(("Paris").data)], [(("Press [Enter] to show content").data)], rfl, rfl, ?_⟩
  exact c1_content_block_height cardB _ _ rfl rfl

/-- **C1** counterexample: on `cardA` (width 10, min height 0) the hidden
content block has 8 lines and the revealed one 3, so the line count is not
independent of `visible` as the claim states. -/
theorem c1_height_counterexample :
    (get_content cardA).map List.length ≠
      (get_content { cardA with hide_content := false }).map List.length ∧
    (get_content cardA).map List.length = Except.ok 8 ∧
    (get_content { cardA with hide_content := false }).map List.length = Except.ok 3 := by
  refine ⟨by decide, rfl, rfl⟩

/-- **C10.** `draw` mutates only the visibility flag: the returned card
agrees with the input on topic, content, keywords, width and minimum
height, and has the flag negated; the rendering operations are pure and
return the card state unchanged, flag included. -/
theorem c10_draw_frame (fc : Flashcard) (L : List PyStr) (fc' : Flashcard)
    (h : draw fc = Except.ok (L, fc')) :
    fc'.topic = fc.topic ∧ fc'.content = fc.content ∧
    fc'.keywords = fc.keywords ∧ fc'.max_card_width = fc.max_card_width ∧
    fc'.min_content_height = fc.min_content_height ∧
    fc'.hide_content = !fc.hide_content ∧
    (get_topicS fc).2 = fc ∧ (get_contentS fc).2 = fc ∧
    (get_keywordsS fc).2 = fc ∧ (get_lines_to_drawS fc).2 = fc := by
  cases hl : get_lines_to_draw fc with
  | error e => rw [draw, hl] at h; simp at h
  | ok ls =>
    rw [draw, hl] at h
    simp only [ok_bind, pure_eq_ok, Except.ok.injEq, Prod.mk.injEq] at h
    obtain ⟨-, h₂⟩ := h
    subst h₂
    exact ⟨rfl, rfl, rfl, rfl, rfl, rfl, rfl, rfl, rfl, rfl⟩

/-- **C10** witness: applied to the end-to-end card. -/
theorem c10_draw_frame_witness :
    ∃ L fc', draw cardB = Except.ok (L, fc') ∧
      (fc'.topic = cardB.topic ∧ fc'.content = cardB.content ∧
       fc'.keywords = cardB.keywords ∧ fc'.max_card_width = cardB.max_card_width ∧
       fc'.min_content_height = cardB.min_content_height ∧
       fc'.hide_content = !cardB.hide_content ∧
       (get_topicS cardB).2 = cardB ∧ (get_contentS cardB).2 = cardB ∧
       (get_keywordsS cardB).2 = cardB ∧ (get_lines_to_drawS cardB).2 = cardB) := by
  obtain ⟨L, hL⟩ := get_lines_structure cardB BORDER (by decide)
  have hdraw : draw cardB = Except.ok (L, { cardB with hide_content := !cardB.hide_content }) := by
    rw [draw, hL]; rfl
  exact ⟨L, _, hdraw, c10_draw_frame cardB L _ hdraw⟩

/-- **C2** (amended).  Two successive `draw` calls return the card to its
original state (`visible` goes false → true → false), and the two renders
agree outside the content block: both are `pre ++ block ++ post` for the
same `pre` and `post`, with the block the hidden (placeholder) and the
revealed (real content) content block respectively.  The original claim's
"not in overall line count" is dropped: the two blocks, hence the two
renders, can differ in length (see the counterexample). -/
theorem c2_draw_toggle (fc : Flashcard) (h6 : 6 ≤ fc.max_card_width)
    (hh : fc.hide_content = true) :
    ∃ L₁ L₂ fc₁ H R pre post,
      draw fc = Except.ok (L₁, fc₁) ∧
      fc₁.hide_content = false ∧
      draw fc₁ = Except.ok (L₂, fc) ∧
      get_content fc = Except.ok H ∧
      get_content fc₁ = Except.ok R ∧
      L₁ = pre ++ H ++ post ∧
      L₂ = pre ++ R ++ post := by
  obtain ⟨L₁, hL₁⟩ := get_lines_structure fc BORDER h6
  have h6' : 6 ≤ (Flashcard.mk fc.max_card_width fc.min_content_height fc.topic
      fc.content fc.keywords false).max_card_width := h6
  obtain ⟨L₂, hL₂⟩ :=
    get_lines_structure { fc with hide_content := false } BORDER h6'
  have hdraw₁ : draw fc = Except.ok (L₁, { fc with hide_content := false }) := by
    rw [draw, hL₁]
    simp only [ok_bind, pure_eq_ok, hh]
    rfl
  have hback : { fc with hide_content := true } = fc := by rw [← hh, eta_hide_content]
  have hdraw₂ : draw { fc with hide_content := false } = Except.ok (L₂, fc) := by
    rw [draw, hL₂]
    simp only [ok_bind, pure_eq_ok]
    exact congrArg Except.ok (congrArg (Prod.mk L₂) hback)
  obtain ⟨t₁, c₁, kwp₁, ht₁, hc₁, hshape₁, hkw₁⟩ := get_lines_inv fc BORDER L₁ hL₁
  obtain ⟨t₂, c₂, kwp₂, ht₂, hc₂, hshape₂, hkw₂⟩ :=
    get_lines_inv { fc with hide_content := false } BORDER L₂ hL₂
  have htopic : get_topic { fc with hide_content := false } = get_topic fc := rfl
  have htt : t₂ = t₁ := by
    have h := (ht₂.symm.trans (htopic.trans ht₁) : Except.ok t₂ = Except.ok t₁)
    exact (Except.ok.injEq _ _).mp h
  have hkk : kwp₂ = kwp₁ := by
    have hkwsame : kwTruthy (Flashcard.mk fc.max_card_width fc.min_content_height
        fc.topic fc.content fc.keywords false).keywords = kwTruthy fc.keywords := rfl
    rcases hkw₁ with ⟨hT₁, k₁, hk₁, hkp₁⟩ | ⟨hF₁, hkp₁⟩ <;>
      rcases hkw₂ with ⟨hT₂, k₂, hk₂, hkp₂⟩ | ⟨hF₂, hkp₂⟩
    · have hkeq : k₂ = k₁ := by
        have hkw : get_keywords { fc with hide_content := false } = get_keywords fc := rfl
        have h := (hk₂.symm.trans (hkw.trans hk₁) : Except.ok k₂ = Except.ok k₁)
        exact (Except.ok.injEq _ _).mp h
      rw [hkp₁, hkp₂, hkeq]
    · rw [hkwsame, hT₁] at hF₂; exact absurd hF₂ (by simp)
    · rw [hkwsame, hF₁] at hT₂; exact absurd hT₂ (by simp)
    · rw [hkp₁, hkp₂]
  refine ⟨L₁, L₂, { fc with hide_content := false }, c₁, c₂,
    [['\n']] ++ [List.replicate fc.max_card_width.toNat BORDER] ++ t₁ ++
      [List.replicate fc.max_card_width.toNat BORDER,
       List.replicate fc.max_card_width.toNat BORDER],
    kwp₁ ++ [List.replicate fc.max_card_width.toNat BORDER],
    hdraw₁, rfl, hdraw₂, hc₁, hc₂, ?_, ?_⟩
  · rw [hshape₁]; simp [List.append_assoc]
  · rw [hshape₂, htt, hkk]; simp [List.append_assoc]

/-- **C2** witness: the end-to-end card. -/
theorem c2_draw_toggle_witness :
    6 ≤ cardB.max_card_width ∧ cardB.hide_content = true ∧
    ∃ L₁ L₂ fc₁ H R pre post,
      draw cardB = Except.ok (L₁, fc₁) ∧
      fc₁.hide_content = false ∧
      draw fc₁ = Except.ok (L₂, cardB) ∧
      get_content cardB = Except.ok H ∧
      get_content fc₁ = Except.ok R ∧
      L₁ = pre ++ H ++ post ∧
      L₂ = pre ++ R ++ post :=
  ⟨by decide, rfl, c2_draw_toggle cardB (by decide) rfl⟩

/-- **C2** counterexample: on `cardA` the two successive renders have 16
and 11 lines respectively, refuting "not in overall line count". -/
theorem c2_draw_counterexample :
    ∃ L₁ fc₁ L₂ fc₂,
      draw cardA = Except.ok (L₁, fc₁) ∧ draw fc₁ = Except.ok (L₂, fc₂) ∧
      L₁.length ≠ L₂.length ∧ L₁.length = 16 ∧ L₂.length = 11 := by
  refine ⟨_, _, _, _, rfl, rfl, by decide, rfl, rfl⟩

/-- **C6** (amended).  `render(card)` is the stated concatenation — leading
newline marker, border, topic block, two borders, content block, the
keywords section, final border — but the keywords section (two borders plus
the keywords block) appears exactly when `keywords` is *truthy* (present
and non-empty), not merely present. -/
theorem c6_render_concat (fc : Flashcard) (b : Char) (L : List PyStr)
    (h : get_lines_to_draw fc b = Except.ok L) :
    ∃ t c, get_topic fc = Except.ok t ∧ get_content fc = Except.ok c ∧
      ((kwTruthy fc.keywords = true ∧ ∃ k, get_keywords fc = Except.ok k ∧
         L = [['\n']] ++ [List.replicate fc.max_card_width.toNat b] ++ t ++
           [List.replicate fc.max_card_width.toNat b,
            List.replicate fc.max_card_width.toNat b] ++ c ++
           ([List.replicate fc.max_card_width.toNat b,
             List.replicate fc.max_card_width.toNat b] ++ k) ++
           [List.replicate fc.max_card_width.toNat b]) ∨
       (kwTruthy fc.keywords = false ∧
         L = [['\n']] ++ [List.replicate fc.max_card_width.toNat b] ++ t ++
           [List.replicate fc.max_card_width.toNat b,
            List.replicate fc.max_card_width.toNat b] ++ c ++
           [List.replicate fc.max_card_width.toNat b])) := by
  obtain ⟨t, c, kwp, ht, hc, hshape, hkw⟩ := get_lines_inv fc b L h
  refine ⟨t, c, ht, hc, ?_⟩
  rcases hkw with ⟨hT, k, hk, hkp⟩ | ⟨hF, hkp⟩
  · exact Or.inl ⟨hT, k, hk, by rw [hshape, hkp]⟩
  · exact Or.inr ⟨hF, by rw [hshape, hkp]; simp⟩

/-- **C6** witness: the end-to-end card, whose keywords are truthy. -/
theorem c6_render_concat_witness :
    ∃ L, get_lines_to_draw cardB BORDER = Except.ok L ∧
      ∃ t c, get_topic cardB = Except.ok t ∧ get_content cardB = Except.ok c ∧
        ((kwTruthy cardB.keywords = true ∧ ∃ k, get_keywords cardB = Except.ok k ∧
           L = [['\n']] ++ [List.replicate cardB.max_card_width.toNat BORDER] ++ t ++
             [List.replicate cardB.max_card_width.toNat BORDER,
              List.replicate cardB.max_card_width.toNat BORDER] ++ c ++
             ([List.replicate cardB.max_card_width.toNat BORDER,
               List.replicate cardB.max_card_width.toNat BORDER] ++ k) ++
             [List.replicate cardB.max_card_width.toNat BORDER]) ∨
         (kwTruthy cardB.keywords = false ∧
           L = [['\n']] ++ [List.replicate cardB.max_card_width.toNat BORDER] ++ t ++
             [List.replicate cardB.max_card_width.toNat BORDER,
              List.replicate cardB.max_card_width.toNat BORDER] ++ c ++
             [List.replicate cardB.max_card_width.toNat BORDER])) := by
  obtain ⟨L, hL⟩ := get_lines_structure cardB BORDER (by decide)
  exact ⟨L, hL, c6_render_concat cardB BORDER L hL⟩

/-- **C6** counterexample: `cardC` has `keywords` present (the empty
string), yet its render is identical to the keywords-free render — 16
lines with no keywords section — while the claim requires a keywords block
whenever the field is present. -/
theorem c6_render_counterexample :
    cardC.keywords = some [] ∧
    get_lines_to_draw cardC = get_lines_to_draw { cardC with keywords := none } ∧
    (get_lines_to_draw cardC).map List.length = Except.ok 16 := ⟨rfl, rfl, rfl⟩

/-- **C7.** Every border line in a successful render equals the border
character repeated `max_card_width` times, wherever it occurs in the
fixed shape, for every card and border character. -/
theorem c7_border_lines (fc : Flashcard) (b : Char) (L : List PyStr)
    (h : get_lines_to_draw fc b = Except.ok L) :
    ∃ t c kwp,
      L = [['\n']] ++ [List.replicate fc.max_card_width.toNat b] ++ t ++
        [List.replicate fc.max_card_width.toNat b,
         List.replicate fc.max_card_width.toNat b] ++ c ++ kwp ++
        [List.replicate fc.max_card_width.toNat b] ∧
      (kwp = [] ∨ ∃ k, kwp = [List.replicate fc.max_card_width.toNat b,
                             List.replicate fc.max_card_width.toNat b] ++ k) := by
  obtain ⟨t, c, kwp, -, -, hshape, hkw⟩ := get_lines_inv fc b L h
  refine ⟨t, c, kwp, hshape, ?_⟩
  rcases hkw with ⟨-, k, -, hkp⟩ | ⟨-, hkp⟩
  · exact Or.inr ⟨k, hkp⟩
  · exact Or.inl hkp

/-- **C7** witness: the end-to-end card with the `'*'` border. -/
theorem c7_border_lines_witness :
    ∃ L, get_lines_to_draw cardB BORDER = Except.ok L ∧
      ∃ t c kwp,
        L = [['\n']] ++ [List.replicate cardB.max_card_width.toNat BORDER] ++ t ++
          [List.replicate cardB.max_card_width.toNat BORDER,
           List.replicate cardB.max_card_width.toNat BORDER] ++ c ++ kwp ++
          [List.replicate cardB.max_card_width.toNat BORDER] ∧
        (kwp = [] ∨ ∃ k, kwp = [List.replicate cardB.max_card_width.toNat BORDER,
                               List.replicate cardB.max_card_width.toNat BORDER] ++ k) := by
  obtain ⟨L, hL⟩ := get_lines_structure cardB BORDER (by decide)
  exact ⟨L, hL, c7_border_lines cardB BORDER L hL⟩

/-- A hidden card draws successfully (given an admissible width), flipping
to revealed, and the revealed card draws back to the original state. -/
theorem draw_pair (fc : Flashcard) (hh : fc.hide_content = true)
    (h6 : 6 ≤ fc.max_card_width) :
    ∃ L₁ L₂,
      get_lines_to_draw fc = Except.ok L₁ ∧
      get_lines_to_draw { fc with hide_content := false } = Except.ok L₂ ∧
      draw fc = Except.ok (L₁, { fc with hide_content := false }) ∧
      draw { fc with hide_content := false } = Except.ok (L₂, fc) := by
  obtain ⟨L₁, hL₁⟩ := get_lines_structure fc BORDER h6
  obtain ⟨L₂, hL₂⟩ := get_lines_structure { fc with hide_content := false } BORDER h6
  have hback : { fc with hide_content := true } = fc := by rw [← hh, eta_hide_content]
  refine ⟨L₁, L₂, hL₁, hL₂, ?_, ?_⟩
  · rw [draw, hL₁]
    simp only [ok_bind, pure_eq_ok, hh]
    rfl
  · rw [draw, hL₂]
    simp only [ok_bind, pure_eq_ok]
    exact congrArg Except.ok (congrArg (Prod.mk L₂) hback)

theorem cardSession_eq (fc : Flashcard) (hh : fc.hide_content = true)
    (h6 : 6 ≤ fc.max_card_width) :
    cardSession fc = Except.ok
      ([Event.clear, Event.drawLines (lines_or_empty fc), Event.readAck,
        Event.clear, Event.drawLines (lines_or_empty { fc with hide_content := false }),
        Event.readAck], fc) := by
  obtain ⟨L₁, L₂, hL₁, hL₂, hd₁, hd₂⟩ := draw_pair fc hh h6
  have hlo₁ : lines_or_empty fc = L₁ := by simp only [lines_or_empty, hL₁]
  have hlo₂ : lines_or_empty { fc with hide_content := false } = L₂ := by
    simp only [lines_or_empty, hL₂]
  simp only [cardSession, runCard, hd₁, hd₂, ok_bind, pure_eq_ok, hlo₁, hlo₂]
  rfl

theorem runAllCards_eq (l : List Flashcard)
    (hhide : ∀ c ∈ l, c.hide_content = true)
    (hw : ∀ c ∈ l, 6 ≤ c.max_card_width) :
    runAllCards l = Except.ok (l.flatMap (fun c =>
      [Event.clear, Event.drawLines (lines_or_empty c), Event.readAck,
       Event.clear, Event.drawLines (lines_or_empty { c with hide_content := false }),
       Event.readAck])) := by
  induction l with
  | nil => rfl
  | cons c rest ih =>
    have h₁ := cardSession_eq c (hhide c (by simp)) (hw c (by simp))
    have h₂ := ih (fun x hx => hhide x (by simp [hx])) (fun x hx => hw x (by simp [hx]))
    simp only [runAllCards, h₁, h₂, ok_bind, pure_eq_ok, List.flatMap_cons]

/-- **C8.** `run_flashcards` (with `random.shuffle` modelled by an
arbitrary permutation applied when `ordered` is false) processes each card
of the processing order in exactly two phases before the next card: clear,
draw the hidden render (cards are constructed hidden, and
`mkFlashcard` always starts with `hide_content = true`), blocking read,
clear, draw the revealed render, blocking read. -/
theorem c8_session_trace (shuffle : List Flashcard → List Flashcard)
    (fcs : List Flashcard) (ordered : Bool)
    (hhide : ∀ c ∈ fcs, c.hide_content = true)
    (hw : ∀ c ∈ fcs, 6 ≤ c.max_card_width)
    (hperm : List.Perm (shuffle fcs) fcs) :
    run_flashcards shuffle fcs ordered =
      Except.ok ((if ordered then fcs else shuffle fcs).flatMap (fun c =>
        [Event.clear, Event.drawLines (lines_or_empty c), Event.readAck,
         Event.clear, Event.drawLines (lines_or_empty { c with hide_content := false }),
         Event.readAck])) ∧
    (∀ t co k w m, (mkFlashcard t co k w m).hide_content = true) := by
  refine ⟨?_, fun t co k w m => rfl⟩
  unfold run_flashcards
  cases ordered with
  | true =>
    simp only [if_true]
    exact runAllCards_eq fcs hhide hw
  | false =>
    simp only [Bool.false_eq_true, if_false]
    exact runAllCards_eq (shuffle fcs)
      (fun c hc => hhide c (hperm.mem_iff.mp hc))
      (fun c hc => hw c (hperm.mem_iff.mp hc))

/-- **C8** witness: a one-card ordered session with the end-to-end card. -/
theorem c8_session_trace_witness :
    run_flashcards id [cardB] true =
      Except.ok ([cardB].flatMap (fun c =>
        [Event.clear, Event.drawLines (lines_or_empty c), Event.readAck,
         Event.clear, Event.drawLines (lines_or_empty { c with hide_content := false }),
         Event.readAck])) ∧
    (∀ t co k w m, (mkFlashcard t co k w m).hide_content = true) :=
  c8_session_trace id [cardB] true (by decide) (by decide) (List.Perm.refl _)

/-! Lemmas about `pyCenter` and `pyStripChar`, for the frame claim. -/

theorem dropWhile_head_stop {p : Char → Bool} {s : List Char}
    (h : ∀ x, s.head? = some x → p x = false) : s.dropWhile p = s := by
  cases s with
  | nil => rfl
  | cons a t => simp [List.dropWhile_cons, h a rfl]

theorem dropWhile_append_all {p : Char → Bool} {l₁ l₂ : List Char}
    (h : ∀ x ∈ l₁, p x = true) : (l₁ ++ l₂).dropWhile p = l₂.dropWhile p := by
  induction l₁ with
  | nil => rfl
  | cons a t ih => simp_all [List.dropWhile_cons]

theorem dropWhile_replicate_beq (n : Nat) (c : Char) (l : List Char) :
    (List.replicate n c ++ l).dropWhile (· == c) = l.dropWhile (· == c) :=
  dropWhile_append_all (by simp)

/-- Stripping a strip-character that pads a core on both sides, when the
core does not itself start or end with it, recovers the core. -/
theorem strip_pad (a : List Char) (c : Char) (l r : Nat)
    (hhead : ∀ x, a.head? = some x → (x == c) = false)
    (hlast : ∀ x, a.getLast? = some x → (x == c) = false) :
    pyStripChar (List.replicate l c ++ a ++ List.replicate r c) c = a := by
  unfold pyStripChar
  rw [List.append_assoc, dropWhile_replicate_beq]
  cases a with
  | nil =>
    have h1 : ((List.replicate r c : List Char)).dropWhile (· == c) = [] := by
      have h2 := dropWhile_replicate_beq r c []
      rw [List.append_nil] at h2
      exact h2
    rw [List.nil_append, h1]
    rfl
  | cons hd tl =>
    have hne : (hd == c) = false := hhead hd rfl
    have h1 : ((hd :: tl) ++ List.replicate r c).dropWhile (· == c) =
        (hd :: tl) ++ List.replicate r c := by
      simp [List.dropWhile_cons, hne]
    rw [h1, List.reverse_append, List.reverse_replicate, dropWhile_replicate_beq,
      dropWhile_head_stop, List.reverse_reverse]
    intro x hx
    rw [List.head?_reverse] at hx
    exact hlast x hx

theorem two_and_and_one (n : Nat) : (2 &&& n) &&& 1 = 0 := by
  rw [Nat.and_assoc]
  have h : n &&& 1 ≤ 1 := Nat.and_le_right
  interval_cases h : n &&& 1 <;> rfl

theorem two_and_mod_two (n : Nat) : (2 &&& n) % 2 = 0 := by
  have h := two_and_and_one n
  rwa [Nat.and_one_is_mod] at h

theorem pyCenter_length (s : PyStr) (w : Int) (f : Char) :
    (pyCenter s w f).length = max s.length w.toNat := by
  unfold pyCenter
  split_ifs with h
  · omega
  · have hb : (s.length : Int) < w := by omega
    have hle : ((w - s.length).toNat) / 2 + ((w - s.length).toNat &&& w.toNat &&& 1) ≤
        (w - s.length).toNat := by
      have h1 : ((w - s.length).toNat &&& w.toNat) &&& 1 ≤ 1 := Nat.and_le_right
      omega
    simp only [List.length_append, List.length_replicate]
    omega

/-- When the text fits strictly, centering is symmetric padding. -/
theorem pyCenter_pad (s : PyStr) (w : Int) (f : Char) (h : (s.length : Int) < w) :
    ∃ l r : Nat, pyCenter s w f = List.replicate l f ++ s ++ List.replicate r f ∧
      ((l : Int) + s.length + r = w) ∧ 1 ≤ l + r := by
  unfold pyCenter
  rw [if_neg (by omega)]
  refine ⟨_, _, rfl, ?_, ?_⟩
  · have h1 : ((w - s.length).toNat &&& w.toNat) &&& 1 ≤ 1 := Nat.and_le_right
    omega
  · have h1 : ((w - s.length).toNat &&& w.toNat) &&& 1 ≤ 1 := Nat.and_le_right
    omega

/-- Centering into exactly two more columns adds one fill character on each
side (the `marg & width & 1` correction vanishes since the margin is 2). -/
theorem pyCenter_two (s : PyStr) (w : Int) (f : Char) (h : (s.length : Int) + 2 = w) :
    pyCenter s w f = List.replicate 1 f ++ s ++ List.replicate 1 f := by
  unfold pyCenter
  rw [if_neg (by omega)]
  have hm : (w - s.length).toNat = 2 := by omega
  rw [hm]
  simp [two_and_and_one, two_and_mod_two]

theorem style_on_line_length (line : PyStr) (w : Int) (b : Char) :
    (style_on_line line w b).length = max line.length w.toNat := by
  unfold style_on_line
  rw [pyCenter_length, pyCenter_length]
  omega

theorem pad_core_head (l r : Nat) (line : PyStr) (b : Char)
    (hb : (' ' == b) = false)
    (hline : ∀ x, line.head? = some x → (x == b) = false)
    (hlr : 1 ≤ l + r) :
    ∀ x, (List.replicate l ' ' ++ line ++ List.replicate r ' ').head? = some x →
      (x == b) = false := by
  intro x hx
  cases l with
  | succ n =>
    rw [List.replicate_succ] at hx
    simp only [List.cons_append, List.head?_cons, Option.some.injEq] at hx
    rw [← hx]
    exact hb
  | zero =>
    simp only [List.replicate_zero, List.nil_append] at hx
    cases line with
    | cons hd tl =>
      simp only [List.cons_append, List.head?_cons, Option.some.injEq] at hx
      rw [← hx]
      exact hline hd rfl
    | nil =>
      simp only [List.nil_append] at hx
      cases r with
      | zero => omega
      | succ m =>
        rw [List.replicate_succ] at hx
        simp only [List.head?_cons, Option.some.injEq] at hx
        rw [← hx]
        exact hb

theorem pad_core_last (l r : Nat) (line : PyStr) (b : Char)
    (hb : (' ' == b) = false)
    (hline : ∀ x, line.getLast? = some x → (x == b) = false)
    (hlr : 1 ≤ l + r) :
    ∀ x, (List.replicate l ' ' ++ line ++ List.replicate r ' ').getLast? = some x →
      (x == b) = false := by
  intro x hx
  rw [← List.head?_reverse, List.reverse_append, List.reverse_append,
    List.reverse_replicate, List.reverse_replicate] at hx
  refine pad_core_head r l line.reverse b hb ?_ (by omega) x ?_
  · intro y hy
    rw [List.head?_reverse] at hy
    exact hline y hy
  · simp only [List.append_assoc] at hx ⊢
    exact hx

/-- **C4** (amended).  `frame(line, width, border_char)` has length
`max(len(line), width)` — so exactly `width` whenever `line` fits — and for
`line` shorter than `width - 2` which neither starts nor ends with the
border character or a space, stripping the border character from both ends
and then trimming spaces reproduces `line`.  (The original unconditional
length claim fails for over-long lines, which `str.center` never truncates,
and the round-trip fails for lines whose own edges carry the border
character or spaces.) -/
theorem c4_frame_props (line : PyStr) (width : Int) (border : Char) :
    ((line.length : Int) ≤ width → ((style_on_line line width border).length : Int) = width) ∧
    ((line.length : Int) < width - 2 →
      (∀ c, line.head? = some c → c ≠ border ∧ c ≠ ' ') →
      (∀ c, line.getLast? = some c → c ≠ border ∧ c ≠ ' ') →
      pyStripChar (pyStripChar (style_on_line line width border) border) ' ' = line) := by
  constructor
  · intro h
    have hl := style_on_line_length line width border
    omega
  · intro hshort hhead hlast
    obtain ⟨l, r, hinner, hlen, hlr⟩ := pyCenter_pad line (width - 2) ' ' hshort
    have hinnerlen : ((pyCenter line (width - 2) ' ').length : Int) + 2 = width := by
      rw [hinner]
      simp only [List.length_append, List.length_replicate]
      push_cast
      omega
    have houter : style_on_line line width border =
        List.replicate 1 border ++ pyCenter line (width - 2) ' ' ++
          List.replicate 1 border := by
      unfold style_on_line
      exact pyCenter_two _ width border hinnerlen
    have hheadb : ∀ x, line.head? = some x → (x == border) = false := by
      intro x hx
      simp [(hhead x hx).1]
    have hheadsp : ∀ x, line.head? = some x → (x == ' ') = false := by
      intro x hx
      simp [(hhead x hx).2]
    have hlastb : ∀ x, line.getLast? = some x → (x == border) = false := by
      intro x hx
      simp [(hlast x hx).1]
    have hlastsp : ∀ x, line.getLast? = some x → (x == ' ') = false := by
      intro x hx
      simp [(hlast x hx).2]
    by_cases hb : border = ' '
    · subst hb
      have hframe : style_on_line line width ' ' =
          List.replicate (1 + l) ' ' ++ line ++ List.replicate (r + 1) ' ' := by
        rw [houter, hinner, List.replicate_add, List.replicate_add]
        simp [List.append_assoc]
      have step1 : pyStripChar (style_on_line line width ' ') ' ' = line := by
        rw [hframe]
        exact strip_pad line ' ' (1 + l) (r + 1) hheadsp hlastsp
      have step2 : pyStripChar line ' ' = line := by
        have h := strip_pad line ' ' 0 0 hheadsp hlastsp
        simpa using h
      rw [step1, step2]
    · have hbne : (' ' == border) = false := by simp [Ne.symm hb]
      have step1 : pyStripChar (style_on_line line width border) border =
          pyCenter line (width - 2) ' ' := by
        rw [houter, hinner]
        exact strip_pad _ border 1 1
          (pad_core_head l r line border hbne hheadb hlr)
          (pad_core_last l r line border hbne hlastb hlr)
      have step2 : pyStripChar (pyCenter line (width - 2) ' ') ' ' = line := by
        rw [hinner]
        exact strip_pad line ' ' l r hheadsp hlastsp
      rw [step1, step2]

/-- **C4** witness: `"hello"` framed at width 9 with `'*'`. -/
theorem c4_frame_props_witness :
    (((("hello").data).length : Int) ≤ 9 ∧
      ((style_on_line (("hello").data) 9 '*').length : Int) = 9) ∧
    (((("hello").data).length : Int) < 9 - 2 ∧
      pyStripChar (pyStripChar (style_on_line (("hello").data) 9 '*') '*') ' ' =
        ("hello").data) :=
  ⟨⟨by decide, (c4_frame_props (("hello").data) 9 '*').1 (by decide)⟩,
   ⟨by decide, (c4_frame_props (("hello").data) 9 '*').2 (by decide)
      (by decide) (by decide)⟩⟩

/-- **C4** counterexample: a line longer than the width keeps its own
length (3 ≠ 2); a line starting with the border character, or with a space,
is not reproduced by strip-then-trim. -/
theorem c4_frame_counterexample :
    (style_on_line (("abc").data) 2).length ≠ 2 ∧
    pyStripChar (pyStripChar (style_on_line (("*ab").data) 6) '*') ' ' ≠ ("*ab").data ∧
    pyStripChar (pyStripChar (style_on_line ((" a").data) 8) '*') ' ' ≠ (" a").data := by
  refine ⟨by decide, by decide, by decide⟩

/-! Lemmas for the wrap width bound (C5). -/

theorem takeGreedy_facts (W : Nat) :
    ∀ (chunks : List PyStr) (curLen : Nat), curLen ≤ W →
      (takeGreedy W curLen chunks).2.1 ≤ W ∧
      ((takeGreedy W curLen chunks).1.map List.length).sum + curLen =
        (takeGreedy W curLen chunks).2.1 := by
  intro chunks
  induction chunks with
  | nil => intro curLen h; exact ⟨h, by simp [takeGreedy]⟩
  | cons c rest ih =>
    intro curLen h
    by_cases hfit : curLen + c.length ≤ W
    · have := ih (curLen + c.length) hfit
      simp only [takeGreedy, if_pos hfit]
      refine ⟨this.1, ?_⟩
      simp only [List.map_cons, List.sum_cons]
      omega
    · simp only [takeGreedy, if_neg hfit]
      exact ⟨h, by simp⟩

theorem rfindHy_lt (s : List Char) (j : Nat) (h : rfindHy s = some j) : j < s.length := by
  unfold rfindHy at h
  cases hf : s.reverse.findIdx? (· == '-') with
  | none => rw [hf] at h; exact absurd h (by simp)
  | some j' =>
    rw [hf] at h
    simp only [Option.some.injEq] at h
    have hne : s ≠ [] := by
      intro he
      rw [he] at hf
      simp at hf
    have hlen : 1 ≤ s.length := List.length_pos.mpr hne
    omega

theorem longStop_le (spaceLeft : Nat) (chunk : List Char) :
    longStop spaceLeft chunk ≤ spaceLeft := by
  unfold longStop
  split
  · cases hf : rfindHy (chunk.take spaceLeft) with
    | none => simp [hf]
    | some hy =>
      simp only [hf]
      have hyl := rfindHy_lt _ hy hf
      rw [List.length_take] at hyl
      split
      · omega
      · exact le_refl _
  · exact le_refl _

theorem handleLongWord_piece_le (W curLen : Nat) (chunk : List Char)
    (hW : 1 ≤ W) (_hc : curLen ≤ W) :
    (handleLongWord W curLen chunk).1.length ≤ W - curLen := by
  unfold handleLongWord
  rw [if_neg (by omega)]
  have hs := longStop_le (W - curLen) chunk
  simp only [List.length_take]
  omega

theorem afterLong_sum_le (W : Nat) (hW : 1 ≤ W) (g : List PyStr × Nat × List PyStr)
    (hsum : (g.1.map List.length).sum = g.2.1) (hle : g.2.1 ≤ W) :
    (((afterLongStep W g).1).map List.length).sum ≤ W := by
  unfold afterLongStep
  cases hr : g.2.2 with
  | nil =>
    simp only [hr]
    show (g.1.map List.length).sum ≤ W
    rw [hsum]
    exact hle
  | cons c cs =>
    simp only [hr]
    by_cases hlong : W < c.length
    · rw [if_pos hlong]
      show ((g.1 ++ [(handleLongWord W g.2.1 c).1]).map List.length).sum ≤ W
      have hp := handleLongWord_piece_le W g.2.1 c hW hle
      simp only [List.map_append, List.sum_append, List.map_cons, List.sum_cons,
        List.map_nil, List.sum_nil, hsum]
      omega
    · rw [if_neg hlong]
      show (g.1.map List.length).sum ≤ W
      rw [hsum]
      exact hle

theorem sum_map_dropLast_le (L : List PyStr) :
    ((L.dropLast).map List.length).sum ≤ (L.map List.length).sum := by
  induction L with
  | nil => simp
  | cons a t ih =>
    cases t with
    | nil => simp
    | cons b u =>
      simp only [List.dropLast_cons₂, List.map_cons, List.sum_cons]
      have := ih
      simp only [List.map_cons, List.sum_cons] at this
      omega

theorem dropTrailing_sum_le (L : List PyStr) :
    ((dropTrailingWS L).map List.length).sum ≤ (L.map List.length).sum := by
  unfold dropTrailingWS
  cases h : L.getLast? with
  | none => simp [h]
  | some last =>
    simp only [h]
    by_cases ha : last.all isWS = true
    · rw [if_pos ha]
      exact sum_map_dropLast_le L
    · rw [if_neg ha]

theorem wrapStep_line_le (W : Nat) (hW : 1 ≤ W) (ne : Bool) (chunks : List PyStr)
    (l : PyStr) (h : (wrapStep W ne chunks).1 = some l) : l.length ≤ W := by
  unfold wrapStep at h
  set g := takeGreedy W 0 (dropLeadingWS ne chunks) with hg
  obtain ⟨hle, hsum⟩ := takeGreedy_facts W (dropLeadingWS ne chunks) 0 (by omega)
  rw [← hg] at hle hsum
  rw [Nat.add_zero] at hsum
  have hall := afterLong_sum_le W hW g hsum hle
  have hdrop := dropTrailing_sum_le (afterLongStep W g).1
  simp only at h
  split at h
  · exact absurd h (by simp)
  · simp only [Option.some.injEq] at h
    rw [← h, List.length_flatten]
    omega

theorem wrapGo_all_le (W : Nat) (hW : 1 ≤ W) :
    ∀ (fuel : Nat) (chunks acc : List PyStr),
      (∀ l ∈ acc, l.length ≤ W) →
      ∀ l ∈ wrapGo W fuel chunks acc, l.length ≤ W := by
  intro fuel
  induction fuel with
  | zero =>
    intro chunks acc hacc l hl
    rw [wrapGo, List.mem_reverse] at hl
    exact hacc l hl
  | succ n ih =>
    intro chunks acc hacc l hl
    cases chunks with
    | nil =>
      rw [wrapGo, List.mem_reverse] at hl
      exact hacc l hl
    | cons c cs =>
      rw [wrapGo] at hl
      cases hs : wrapStep W (!acc.isEmpty) (c :: cs) with
      | mk o rest =>
        cases o with
        | some l' =>
          rw [hs] at hl
          refine ih rest (l' :: acc) ?_ l hl
          intro x hx
          cases hx with
          | head => exact wrapStep_line_le W hW _ _ _ (by rw [hs])
          | tail _ hx => exact hacc x hx
        | none =>
          rw [hs] at hl
          exact ih rest acc hacc l hl

/-- **C5** (amended).  Every line produced by `wrap(text, width)` has
length at most `width - 5`; and for `width ≥ 6` the wrap of a text that is
empty after whitespace collapsing is the empty sequence.  (For
`width ≤ 5`, `textwrap.wrap` is called with a non-positive width and raises
`ValueError` instead of returning anything, so the empty-sequence clause
needs the width bound the original claim omitted.) -/
theorem c5_wrap_bounds (text : PyStr) (width : Int) :
    (∀ ls, format_data text width = Except.ok ls →
      ∀ l ∈ ls, (l.length : Int) ≤ width - 5) ∧
    (6 ≤ width → pySplit text = [] → format_data text width = Except.ok []) := by
  constructor
  · intro ls h l hl
    unfold format_data pyWrap at h
    split at h
    · exact absurd h (by simp)
    · rename_i hpos
      simp only [Except.ok.injEq] at h
      have hW : 1 ≤ (width - 5).toNat := by omega
      have := wrapGo_all_le (width - 5).toNat hW _ _ [] (by simp) l (by rw [h]; exact hl)
      omega
  · intro h6 hsplit
    unfold format_data
    rw [hsplit]
    show pyWrap [] (width - 5) = Except.ok []
    rw [pyWrap_ok [] (width - 5) (by omega)]
    rfl

/-- **C5** witness: `wrap("alpha beta", 11)` has lines of length at most 6,
and the empty text wraps to the empty sequence at width 10. -/
theorem c5_wrap_bounds_witness :
    (((("alpha").data).length : Int) ≤ 11 - 5) ∧ format_data [] 10 = Except.ok [] :=
  ⟨(c5_wrap_bounds (("alpha beta").data) 11).1
      [(("alpha").data), (("beta").data)] rfl (("alpha").data) (by decide),
   (c5_wrap_bounds [] 10).2 (by decide) rfl⟩

/-- **C5** counterexample: at width 5 the wrapped width is 0, so even the
empty text raises `ValueError` rather than yielding the empty sequence. -/
theorem c5_wrap_counterexample :
    format_data [] 5 ≠ Except.ok [] ∧ ∃ e, format_data [] 5 = Except.error e :=
  ⟨by decide, ⟨_, rfl⟩⟩

/-! Lemmas for the word-boundary claim (C3): `str.split` tokens, joins,
whitespace munging, the chunk splitter on hyphen-free words, and the
greedy wrapper on word/space-interleaved chunks. -/

theorem pySplitGo_tokens (s : List Char) :
    ∀ cur, (∀ c ∈ cur, isWS c = false) →
      ∀ t ∈ pySplitGo cur s, t ≠ [] ∧ ∀ c ∈ t, isWS c = false := by
  induction s with
  | nil =>
    intro cur hcur t ht
    rw [pySplitGo] at ht
    split at ht
    · simp at ht
    · rename_i hne
      simp only [List.mem_singleton] at ht
      subst ht
      constructor
      · simp only [ne_eq, List.reverse_eq_nil_iff]
        simpa [List.isEmpty_iff] using hne
      · intro c hc
        exact hcur c (List.mem_reverse.mp hc)
  | cons a rest ih =>
    intro cur hcur t ht
    rw [pySplitGo] at ht
    by_cases ha : isWS a = true
    · rw [if_pos ha] at ht
      split at ht
      · exact ih [] (by simp) t ht
      · rename_i hne
        cases ht with
        | head =>
          constructor
          · simp only [ne_eq, List.reverse_eq_nil_iff]
            simpa [List.isEmpty_iff] using hne
          · intro c hc
            exact hcur c (List.mem_reverse.mp hc)
        | tail _ ht => exact ih [] (by simp) t ht
    · rw [if_neg ha] at ht
      refine ih (a :: cur) ?_ t ht
      intro c hc
      cases hc with
      | head => simpa using ha
      | tail _ hc => exact hcur c hc

theorem pySplit_tokens (s : List Char) :
    ∀ t ∈ pySplit s, t ≠ [] ∧ ∀ c ∈ t, isWS c = false :=
  pySplitGo_tokens s [] (by simp)

theorem pySplitGo_word (w : List Char) (hw : ∀ c ∈ w, isWS c = false) :
    ∀ cur rest, pySplitGo cur (w ++ rest) = pySplitGo (w.reverse ++ cur) rest := by
  induction w with
  | nil => intro cur rest; simp
  | cons a t ih =>
    intro cur rest
    have ha : isWS a = false := hw a (by simp)
    rw [List.cons_append, pySplitGo, if_neg (by simp [ha])]
    rw [ih (fun c hc => hw c (by simp [hc])) (a :: cur) rest]
    simp [List.append_assoc]

theorem pySplit_join (ws : List (List Char))
    (h : ∀ w ∈ ws, w ≠ [] ∧ ∀ c ∈ w, isWS c = false) :
    pySplit (pyJoin [' '] ws) = ws := by
  induction ws with
  | nil => rfl
  | cons w ws' ih =>
    obtain ⟨hne, hchars⟩ := h w (by simp)
    have hrev : w.reverse.isEmpty = false := by
      simp [List.isEmpty_iff, hne]
    cases ws' with
    | nil =>
      show pySplitGo [] (pyJoin [' '] [w]) = [w]
      rw [show pyJoin [' '] [w] = w ++ [] from by simp [pyJoin]]
      rw [pySplitGo_word w hchars [] []]
      rw [pySplitGo, if_neg (by simp [hrev])]
      simp
    | cons v rest =>
      show pySplitGo [] (pyJoin [' '] (w :: v :: rest)) = w :: v :: rest
      rw [show pyJoin [' '] (w :: v :: rest) =
        w ++ (' ' :: pyJoin [' '] (v :: rest)) from by simp [pyJoin]]
      rw [pySplitGo_word w hchars [] (' ' :: pyJoin [' '] (v :: rest))]
      rw [List.append_nil, pySplitGo, if_pos (by decide), if_neg (by simp [hrev])]
      rw [List.reverse_reverse]
      have ih' := ih (fun x hx => h x (by simp [hx]))
      rw [show pySplitGo [] (pyJoin [' '] (v :: rest)) = pySplit (pyJoin [' '] (v :: rest)) from rfl, ih']

theorem expandTabs_id (s : List Char) (h : ∀ c ∈ s, (c == '\t') = false) :
    ∀ col, expandTabsGo col s = s := by
  induction s with
  | nil => intro col; rfl
  | cons a t ih =>
    intro col
    rw [expandTabsGo, if_neg (by simp [h a (by simp)])]
    have ih' := fun col => ih (fun c hc => h c (by simp [hc])) col
    split
    · rw [ih']
    · rw [ih']

theorem munge_id (s : List Char) (h : ∀ c ∈ s, isWS c = false ∨ c = ' ') :
    mungeWhitespace s = s := by
  unfold mungeWhitespace
  rw [expandTabs_id]
  · rw [show s.map (fun c => if isWS c then ' ' else c) = s.map id from ?_, List.map_id]
    refine List.map_congr_left ?_
    intro c hc
    rcases h c hc with hws | hsp
    · simp [hws]
    · simp [hsp]
  · intro c hc
    rcases h c hc with hws | hsp
    · by_cases ht : c = '\t'
      · rw [ht] at hws; exact absurd hws (by decide)
      · simp [ht]
    · simp [hsp]

theorem pyReplaceChar_id (s : List Char) (old new : Char)
    (h : ∀ c ∈ s, (c == old) = false) : pyReplaceChar s old new = s := by
  unfold pyReplaceChar
  rw [show s.map (fun c => if c == old then new else c) = s.map id from ?_, List.map_id]
  refine List.map_congr_left ?_
  intro c hc
  simp [h c hc]

theorem pyJoin_chars (ws : List (List Char)) (c : Char) (hc : c ∈ pyJoin [' '] ws) :
    c = ' ' ∨ ∃ w ∈ ws, c ∈ w := by
  induction ws with
  | nil => simp [pyJoin] at hc
  | cons w ws' ih =>
    cases ws' with
    | nil =>
      simp only [pyJoin] at hc
      exact Or.inr ⟨w, by simp, hc⟩
    | cons v rest =>
      rw [show pyJoin [' '] (w :: v :: rest) =
        w ++ [' '] ++ pyJoin [' '] (v :: rest) from rfl] at hc
      rcases List.mem_append.mp hc with hc | hc
      · rcases List.mem_append.mp hc with hc | hc
        · exact Or.inr ⟨w, by simp, hc⟩
        · simp only [List.mem_singleton] at hc
          exact Or.inl hc
      · rcases ih hc with hsp | ⟨u, hu, hcu⟩
        · exact Or.inl hsp
        · exact Or.inr ⟨u, by simp [hu], hcu⟩

theorem wordGo_word (w : List Char)
    (hchars : ∀ c ∈ w, isWS c = false ∧ (c == '-') = false)
    (rest : List Char) (hrest : rest = [] ∨ ∃ r', rest = ' ' :: r') (hw : w ≠ []) :
    ∀ rp acc, wordGo rp acc (w ++ rest) = (acc.reverse ++ w, w.reverse ++ rp, rest) := by
  induction w with
  | nil => exact absurd rfl hw
  | cons a t ih =>
    intro rp acc
    have ha : isWS a = false := (hchars a (by simp)).1
    have ha2 : (a == '-') = false := (hchars a (by simp)).2
    rw [List.cons_append, wordGo]
    have hstopA : stopA (a :: rp) (t ++ rest) = false := by
      simp [stopA, behindA, ha2]
    cases t with
    | nil =>
      have hstopB : stopB ([] ++ rest) = true := by
        rcases hrest with hr | ⟨r', hr⟩ <;> simp [hr, stopB, isWS]
      rw [hstopA, hstopB]
      simp
    | cons b t' =>
      have hb : isWS b = false := (hchars b (by simp)).1
      have hb2 : (b == '-') = false := (hchars b (by simp)).2
      have hstopB : stopB ((b :: t') ++ rest) = false := by simp [stopB, hb]
      have hrun : hyRun (b :: (t' ++ rest)) = 0 := by
        simp [hyRun, List.takeWhile_cons, hb2]
      have hstopC : stopC (a :: rp) ((b :: t') ++ rest) = false := by
        simp only [stopC, List.cons_append]
        simp [hrun]
      rw [hstopA, hstopB, hstopC]
      simp only [Bool.or_false, Bool.false_or, if_false, Bool.or_self]
      rw [show ((b :: t') ++ rest) = (b :: t') ++ rest from rfl]
      rw [ih (fun c hc => hchars c (by simp [hc])) (by simp) (a :: rp) (a :: acc)]
      simp [List.append_assoc]

theorem pyJoin_cons_parts (v : List Char) (rest : List (List Char)) :
    ∃ X, pyJoin [' '] (v :: rest) = v ++ X := by
  cases rest with
  | nil => exact ⟨[], by simp [pyJoin]⟩
  | cons u rest' => exact ⟨[' '] ++ pyJoin [' '] (u :: rest'), by simp [pyJoin]⟩

theorem splitGo_nil_any (fuel : Nat) (rp : List Char) : splitGo fuel rp [] = [] := by
  cases fuel <;> rfl

theorem splitGo_join (ws : List (List Char))
    (h : ∀ w ∈ ws, w ≠ [] ∧ ∀ c ∈ w, isWS c = false ∧ (c == '-') = false) :
    ∀ fuel rp, 2 * ws.length ≤ fuel →
      splitGo fuel rp (pyJoin [' '] ws) = interleaveSp ws := by
  induction ws with
  | nil =>
    intro fuel rp _
    rw [show pyJoin [' '] [] = [] from rfl, splitGo_nil_any]
    rfl
  | cons w ws' ih =>
    intro fuel rp hfuel
    obtain ⟨hwne, hwchars⟩ := h w (by simp)
    obtain ⟨a, t, rfl⟩ : ∃ a t, w = a :: t := by
      cases w with
      | nil => exact absurd rfl hwne
      | cons a t => exact ⟨a, t, rfl⟩
    have ha : isWS a = false := (hwchars a (by simp)).1
    have ha2 : (a == '-') = false := (hwchars a (by simp)).2
    cases fuel with
    | zero => simp at hfuel
    | succ f =>
    obtain ⟨X, hX, hXshape⟩ :
        ∃ X, pyJoin [' '] ((a :: t) :: ws') = (a :: t) ++ X ∧
          (X = [] ∧ ws' = [] ∨ ∃ r', X = ' ' :: r' ∧ ws' ≠ []) := by
      cases ws' with
      | nil => exact ⟨[], by simp [pyJoin], Or.inl ⟨rfl, rfl⟩⟩
      | cons v rest' =>
        exact ⟨' ' :: pyJoin [' '] (v :: rest'), by simp [pyJoin], Or.inr ⟨_, rfl, by simp⟩⟩
    have hres : X = [] ∨ ∃ r', X = ' ' :: r' := by
      rcases hXshape with ⟨hx, -⟩ | ⟨r', hx, -⟩
      · exact Or.inl hx
      · exact Or.inr ⟨r', hx⟩
    rw [hX]
    rw [show (a :: t) ++ X = a :: (t ++ X) from rfl]
    simp only [splitGo]
    rw [if_neg (by simp [ha])]
    have hrun : hyRun (a :: (t ++ X)) = 0 := by
      simp [hyRun, List.takeWhile_cons, ha2]
    rw [if_neg (by simp [hrun])]
    rw [show a :: (t ++ X) = (a :: t) ++ X from rfl]
    rw [wordGo_word (a :: t) hwchars X hres (by simp) rp []]
    simp only [List.reverse_nil, List.nil_append]
    rcases hXshape with ⟨hx, hws'⟩ | ⟨r', hx, hws'⟩
    · subst hx
      subst hws'
      rw [splitGo_nil_any]
      rfl
    · subst hx
      obtain ⟨v, rest', rfl⟩ : ∃ v rest', ws' = v :: rest' := by
        cases ws' with
        | nil => exact absurd rfl hws'
        | cons v rest' => exact ⟨v, rest', rfl⟩
      have hr' : r' = pyJoin [' '] (v :: rest') := by
        have := hX
        cases rest' <;> simp [pyJoin] at this ⊢ <;> tauto
      obtain ⟨hvne, hvchars⟩ := h v (by simp)
      obtain ⟨b, tv, rfl⟩ : ∃ b tv, v = b :: tv := by
        cases v with
        | nil => exact absurd rfl hvne
        | cons b tv => exact ⟨b, tv, rfl⟩
      have hb : isWS b = false := (hvchars b (by simp)).1
      obtain ⟨Y, hY⟩ := pyJoin_cons_parts (b :: tv) rest'
      cases f with
      | zero => simp at hfuel; omega
      | succ f' =>
      simp only [splitGo]
      rw [if_pos (by decide)]
      rw [hr', hY]
      rw [show (b :: tv) ++ Y = b :: (tv ++ Y) from rfl]
      rw [List.takeWhile_cons_of_neg (by simp [hb]), List.dropWhile_cons_of_neg (by simp [hb])]
      rw [show (b :: (tv ++ Y)) = (b :: tv) ++ Y from rfl, ← hY, ← hr']
      rw [hr']
      rw [ih (fun x hx => h x (by simp [hx])) f' _ (by simp at hfuel ⊢; omega)]
      rfl

theorem interleaveSp_cons_ne (w : PyStr) (ws : List PyStr) (h : ws ≠ []) :
    interleaveSp (w :: ws) = w :: [' '] :: interleaveSp ws := by
  cases ws with
  | nil => exact absurd rfl h
  | cons v rest => rfl

theorem interleaveSp_ne_nil (ws : List PyStr) (h : ws ≠ []) : interleaveSp ws ≠ [] := by
  cases ws with
  | nil => exact absurd rfl h
  | cons w ws' => cases ws' <;> simp [interleaveSp]

theorem flatten_interleaveSp (ws : List PyStr) :
    (interleaveSp ws).flatten = pyJoin [' '] ws := by
  induction ws with
  | nil => rfl
  | cons w ws' ih =>
    cases ws' with
    | nil => simp [interleaveSp, pyJoin]
    | cons v rest =>
      rw [interleaveSp_cons_ne _ _ (by simp)]
      simp only [List.flatten_cons]
      rw [ih]
      simp [pyJoin, List.append_assoc]

theorem interleaveSp_length_ge (ws : List PyStr) :
    ws.length ≤ (interleaveSp ws).length := by
  induction ws with
  | nil => simp
  | cons w ws' ih =>
    cases ws' with
    | nil => simp [interleaveSp]
    | cons v rest =>
      rw [interleaveSp_cons_ne _ _ (by simp)]
      simp only [List.length_cons] at ih ⊢
      omega

theorem interleaveSp_getLast_mem (ws : List PyStr) (h : ws ≠ []) :
    ∃ w ∈ ws, (interleaveSp ws).getLast? = some w := by
  induction ws with
  | nil => exact absurd rfl h
  | cons w ws' ih =>
    cases ws' with
    | nil => exact ⟨w, by simp, rfl⟩
    | cons v rest =>
      obtain ⟨u, hu, hlast⟩ := ih (by simp)
      refine ⟨u, by simp [hu], ?_⟩
      rw [interleaveSp_cons_ne _ _ (by simp), List.getLast?_cons_cons]
      rw [← hlast]
      cases hi : interleaveSp (v :: rest) with
      | nil => exact absurd hi (interleaveSp_ne_nil _ (by simp))
      | cons x xs => rw [List.getLast?_cons_cons]

theorem takeGreedy_inter (W : Nat) :
    ∀ (ws : List PyStr) (curLen : Nat), (∀ w ∈ ws, w.length ≤ W) →
      ∃ as bs t, ws = as ++ bs ∧
        (takeGreedy W curLen (interleaveSp ws)).1 =
          interleaveSp as ++ (if t = true then [[' ']] else []) ∧
        (takeGreedy W curLen (interleaveSp ws)).2.2 =
          (if t = true ∨ as = [] then interleaveSp bs else
            if bs = [] then [] else [' '] :: interleaveSp bs) ∧
        (t = true → bs ≠ [] ∧ as ≠ []) ∧
        (as = [] → t = false ∧ (ws = [] ∨ W < curLen + (ws.headD []).length)) := by
  intro ws
  induction ws with
  | nil =>
    intro curLen _
    exact ⟨[], [], false, rfl, by simp [takeGreedy, interleaveSp],
      by simp [takeGreedy, interleaveSp], by simp, fun _ => ⟨rfl, Or.inl rfl⟩⟩
  | cons w ws' ih =>
    intro curLen hlen
    by_cases hfit : curLen + w.length ≤ W
    · cases ws' with
      | nil =>
        refine ⟨[w], [], false, by simp, ?_, ?_, by simp, by simp⟩
        · show (takeGreedy W curLen [w]).1 = interleaveSp [w] ++ []
          rw [takeGreedy, if_pos hfit]
          simp [takeGreedy, interleaveSp]
        · show (takeGreedy W curLen [w]).2.2 = _
          rw [takeGreedy, if_pos hfit]
          simp [takeGreedy]
      | cons v rest =>
        have hchunks : interleaveSp (w :: v :: rest) =
            w :: [' '] :: interleaveSp (v :: rest) := rfl
        by_cases hsp : curLen + w.length + 1 ≤ W
        · obtain ⟨as', bs', t', heq', h1', h2', h3', h4'⟩ :=
            ih (curLen + w.length + 1) (fun x hx => hlen x (by simp [hx]))
          by_cases has' : as' = []
          · subst has'
            obtain ⟨ht', hrest'⟩ := h4' rfl
            subst ht'
            subst heq'
            simp only [Bool.false_eq_true, false_or, if_false, interleaveSp,
              List.nil_append, List.append_nil, eq_self_iff_true, if_true,
              or_true, true_or] at h1' h2'
            refine ⟨[w], v :: rest, true, by simp, ?_, ?_, fun _ => ⟨by simp, by simp⟩,
              by simp⟩
            · rw [hchunks, takeGreedy, if_pos hfit, takeGreedy,
                if_pos (by simpa using hsp)]
              simp [interleaveSp, h1']
            · rw [hchunks, takeGreedy, if_pos hfit, takeGreedy,
                if_pos (by simpa using hsp)]
              simp [h2']
          · refine ⟨w :: as', bs', t', by simp [heq'], ?_, ?_, ?_, by simp⟩
            · rw [hchunks, takeGreedy, if_pos hfit, takeGreedy,
                if_pos (by simpa using hsp)]
              rw [interleaveSp_cons_ne _ _ has']
              simp [List.cons_append, h1']
            · rw [hchunks, takeGreedy, if_pos hfit, takeGreedy,
                if_pos (by simpa using hsp)]
              by_cases ht' : t' = true
              · simp [ht', has', h2']
              · simp only [ht', false_or, if_false]
                simp [has', ht', h2']
            · intro ht'
              exact ⟨(h3' ht').1, by simp⟩
        · refine ⟨[w], v :: rest, false, by simp, ?_, ?_, by simp, by simp⟩
          · rw [hchunks, takeGreedy, if_pos hfit, takeGreedy,
              if_neg (by simpa using hsp)]
            simp [interleaveSp]
          · rw [hchunks, takeGreedy, if_pos hfit, takeGreedy,
              if_neg (by simpa using hsp)]
            simp
    · have hhead : ∃ Z, interleaveSp (w :: ws') = w :: Z := by
        cases ws' with
        | nil => exact ⟨[], rfl⟩
        | cons v rest => exact ⟨[' '] :: interleaveSp (v :: rest), rfl⟩
      obtain ⟨Z, hZ⟩ := hhead
      refine ⟨[], w :: ws', false, rfl, ?_, ?_, by simp,
        fun _ => ⟨rfl, Or.inr (by simpa using hfit)⟩⟩
      · rw [hZ, takeGreedy, if_neg hfit]
        simp [interleaveSp]
      · rw [hZ, takeGreedy, if_neg hfit]
        rw [← hZ]
        simp

theorem goodW_all_false (W : Nat) (w : PyStr) (h : goodW W w) : w.all isWS = false := by
  obtain ⟨hne, -, hchars⟩ := h
  cases w with
  | nil => exact absurd rfl hne
  | cons c t => simp [List.all_cons, hchars c (by simp)]

theorem interleaveSp_head_cons (w : PyStr) (ws' : List PyStr) :
    ∃ Z, interleaveSp (w :: ws') = w :: Z := by
  cases ws' with
  | nil => exact ⟨[], rfl⟩
  | cons v rest => exact ⟨[' '] :: interleaveSp (v :: rest), rfl⟩

theorem afterLong_id (W : Nat) (g : List PyStr × Nat × List PyStr)
    (h : ∀ c, g.2.2.head? = some c → c.length ≤ W) :
    afterLongStep W g = (g.1, g.2.2) := by
  unfold afterLongStep
  cases hr : g.2.2 with
  | nil => simp [hr]
  | cons c cs =>
    simp only [hr]
    rw [if_neg]
    have := h c (by rw [hr]; rfl)
    omega

theorem dropTrailingWS_concat_ws (L : List PyStr) (x : PyStr) (hx : x.all isWS = true) :
    dropTrailingWS (L ++ [x]) = L := by
  unfold dropTrailingWS
  rw [List.getLast?_concat]
  simp [hx]

theorem dropTrailingWS_keep (L : List PyStr) (u : PyStr) (hu : L.getLast? = some u)
    (hx : u.all isWS = false) : dropTrailingWS L = L := by
  unfold dropTrailingWS
  rw [hu]
  simp [hx]

theorem wrapStep_inter (W : Nat) (hW : 1 ≤ W) (ws : List PyStr)
    (hws : ∀ w ∈ ws, goodW W w) (lead ne : Bool)
    (hlead : lead = true → ne = true) (hne : ws ≠ []) :
    ∃ as bs lead', ws = as ++ bs ∧ as ≠ [] ∧
      wrapStep W ne ((if lead = true then [[' ']] else []) ++ interleaveSp ws) =
        (some (pyJoin [' '] as),
         (if lead' = true then [[' ']] else []) ++ interleaveSp bs) ∧
      (lead' = true → bs ≠ []) := by
  obtain ⟨w₀, ws'', rfl⟩ : ∃ w₀ ws'', ws = w₀ :: ws'' := by
    cases ws with
    | nil => exact absurd rfl hne
    | cons w₀ ws'' => exact ⟨w₀, ws'', rfl⟩
  have hdrop : dropLeadingWS ne ((if lead = true then [[' ']] else []) ++
      interleaveSp (w₀ :: ws'')) = interleaveSp (w₀ :: ws'') := by
    cases lead with
    | true =>
      rw [hlead rfl]
      simp only [if_true, List.cons_append, List.nil_append, dropLeadingWS]
      rw [if_pos (by decide)]
    | false =>
      obtain ⟨Z, hZ⟩ := interleaveSp_head_cons w₀ ws''
      simp only [Bool.false_eq_true, if_false, List.nil_append, hZ, dropLeadingWS]
      rw [if_neg (by simp [goodW_all_false W w₀ (hws w₀ (by simp))])]
  obtain ⟨as, bs, t, heq, h1, h2, h3, h4⟩ :=
    takeGreedy_inter W (w₀ :: ws'') 0 (fun w hw => (hws w hw).2.1)
  have has : as ≠ [] := by
    intro hasnil
    obtain ⟨-, hW'⟩ := h4 hasnil
    rcases hW' with habs | habs
    · simp at habs
    · have := (hws w₀ (by simp)).2.1
      simp only [List.headD_cons] at habs
      omega
  have hrem : ∀ c, (takeGreedy W 0 (interleaveSp (w₀ :: ws''))).2.2.head? = some c →
      c.length ≤ W := by
    intro c hc
    rw [h2] at hc
    by_cases ht : t = true
    · rw [if_pos (Or.inl ht)] at hc
      obtain ⟨hbs, -⟩ := h3 ht
      obtain ⟨b₀, bs', rfl⟩ : ∃ b₀ bs', bs = b₀ :: bs' := by
        cases bs with
        | nil => exact absurd rfl hbs
        | cons b₀ bs' => exact ⟨b₀, bs', rfl⟩
      obtain ⟨Z, hZ⟩ := interleaveSp_head_cons b₀ bs'
      rw [hZ] at hc
      simp only [List.head?_cons, Option.some.injEq] at hc
      subst hc
      exact (hws b₀ (by simp [heq])).2.1
    · rw [if_neg (by simp [ht, has])] at hc
      by_cases hbs : bs = []
      · rw [if_pos hbs] at hc
        simp at hc
      · rw [if_neg hbs] at hc
        simp only [List.head?_cons, Option.some.injEq] at hc
        subst hc
        simpa using hW
  have hlong := afterLong_id W (takeGreedy W 0 (interleaveSp (w₀ :: ws''))) hrem
  have hcur : dropTrailingWS (takeGreedy W 0 (interleaveSp (w₀ :: ws''))).1 =
      interleaveSp as := by
    rw [h1]
    by_cases ht : t = true
    · rw [if_pos ht]
      exact dropTrailingWS_concat_ws _ _ (by decide)
    · rw [if_neg ht, List.append_nil]
      obtain ⟨u, hu, hulast⟩ := interleaveSp_getLast_mem as has
      exact dropTrailingWS_keep _ u hulast
        (goodW_all_false W u (hws u (by simp [heq, hu])))
  refine ⟨as, bs, (!t) && !bs.isEmpty, heq, has, ?_, ?_⟩
  · unfold wrapStep
    rw [hdrop, hlong]
    simp only [hcur]
    rw [if_neg (by simp [interleaveSp_ne_nil as has])]
    rw [flatten_interleaveSp]
    refine congrArg _ ?_
    rw [h2]
    by_cases ht : t = true
    · rw [if_pos (Or.inl ht)]
      simp [ht]
    · rw [if_neg (by simp [ht, has])]
      by_cases hbs : bs = []
      · rw [if_pos hbs]
        simp [hbs, ht, interleaveSp]
      · rw [if_neg hbs]
        simp [ht, hbs, List.isEmpty_iff]
  · intro hl
    simp only [Bool.and_eq_true, Bool.not_eq_true'] at hl
    simpa [List.isEmpty_iff] using hl.2

theorem wrapGo_nil (W : Nat) (fuel : Nat) (acc : List PyStr) :
    wrapGo W fuel [] acc = acc.reverse := by
  cases fuel <;> rfl

theorem wrapGo_inter (W : Nat) (hW : 1 ≤ W) :
    ∀ (fuel : Nat) (ws : List PyStr) (acc : List PyStr) (lead : Bool),
      (∀ w ∈ ws, goodW W w) → (lead = true → acc ≠ []) → ws.length < fuel →
      ∃ res, wrapGo W fuel ((if lead = true then [[' ']] else []) ++ interleaveSp ws) acc =
          acc.reverse ++ res ∧ res.flatMap pySplit = ws := by
  intro fuel
  induction fuel with
  | zero =>
    intro ws acc lead _ _ h
    omega
  | succ f ih =>
    intro ws acc lead hws hlead hfuel
    by_cases hwsnil : ws = []
    · subst hwsnil
      cases lead with
      | false =>
        refine ⟨[], ?_, rfl⟩
        simp only [Bool.false_eq_true, if_false, List.nil_append, interleaveSp]
        simp [wrapGo_nil]
      | true =>
        have hacc := hlead rfl
        have haccb : (!acc.isEmpty) = true := by
          simp [List.isEmpty_iff, hacc]
        have hstep : wrapStep W (!acc.isEmpty) [[' ']] = (none, []) := by
          rw [haccb]
          rfl
        refine ⟨[], ?_, rfl⟩
        simp only [if_true, interleaveSp, List.append_nil]
        rw [wrapGo, hstep]
        exact wrapGo_nil W f acc
    · obtain ⟨as, bs, lead', heq, hasne, hstep, hlead'⟩ :=
        wrapStep_inter W hW ws hws lead (!acc.isEmpty)
          (fun hl => by simp [List.isEmpty_iff, hlead hl]) hwsnil
      obtain ⟨c0, cs0, hchunks⟩ :
          ∃ c0 cs0, (if lead = true then [[' ']] else []) ++ interleaveSp ws =
            c0 :: cs0 := by
        cases lead with
        | true => exact ⟨[' '], interleaveSp ws, by simp⟩
        | false =>
          obtain ⟨w₀, ws'', rfl⟩ : ∃ w₀ ws'', ws = w₀ :: ws'' := by
            cases ws with
            | nil => exact absurd rfl hwsnil
            | cons w₀ ws'' => exact ⟨w₀, ws'', rfl⟩
          obtain ⟨Z, hZ⟩ := interleaveSp_head_cons w₀ ws''
          exact ⟨w₀, Z, by simp [hZ]⟩
      have hbs : ∀ w ∈ bs, goodW W w := fun w hw => hws w (by simp [heq, hw])
      have hfuel' : bs.length < f := by
        have : ws.length = as.length + bs.length := by simp [heq]
        have h1 : 1 ≤ as.length := by
          cases as with
          | nil => exact absurd rfl hasne
          | cons x xs => simp
        omega
      obtain ⟨res', hres', hflat'⟩ :=
        ih bs (pyJoin [' '] as :: acc) lead' hbs (fun _ => by simp) hfuel'
      refine ⟨pyJoin [' '] as :: res', ?_, ?_⟩
      · rw [hchunks, wrapGo, ← hchunks, hstep]
        show wrapGo W f ((if lead' = true then [[' ']] else []) ++ interleaveSp bs)
          (pyJoin [' '] as :: acc) = acc.reverse ++ (pyJoin [' '] as :: res')
        rw [hres']
        simp
      · simp only [List.flatMap_cons]
        rw [pySplit_join as (fun w hw =>
          ⟨(hws w (by simp [heq, hw])).1, (hws w (by simp [heq, hw])).2.2⟩)]
        rw [hflat', heq]

theorem pyJoin_length_ge (ws : List (List Char)) (h : ∀ w ∈ ws, w ≠ []) :
    2 * ws.length ≤ (pyJoin [' '] ws).length + 1 := by
  induction ws with
  | nil => simp [pyJoin]
  | cons w ws' ih =>
    have h1 : 1 ≤ w.length := by
      have hne := h w (by simp)
      cases w with
      | nil => exact absurd rfl hne
      | cons c t => simp
    cases ws' with
    | nil =>
      simp only [pyJoin, List.length_singleton]
      omega
    | cons v rest =>
      have ih' := ih (fun x hx => h x (by simp [hx]))
      rw [show pyJoin [' '] (w :: v :: rest) = w ++ [' '] ++ pyJoin [' '] (v :: rest)
        from rfl]
      simp only [List.length_append, List.length_cons, List.length_nil] at ih' ⊢
      omega

/-- **C3** (amended).  `wrap(text, width)` breaks only at word boundaries
*for hyphen-free words that fit in `width - 5`*: if every whitespace-word
of `text` contains no hyphen and has length at most `width - 5` (and
`width ≥ 6`), splitting the returned lines back into words recovers the
original word sequence exactly — no word is split, lost, or reordered.
(Unconditionally the claim is false: `textwrap` both splits words longer
than the wrap width and breaks hyphenated words after a hyphen; see the
counterexample.) -/
theorem c3_wrap_word_boundaries (text : PyStr) (width : Int) (h6 : 6 ≤ width)
    (hwords : ∀ w ∈ pySplit text,
      (w.length : Int) ≤ width - 5 ∧ ∀ c ∈ w, (c == '-') = false) :
    ∃ ls, format_data text width = Except.ok ls ∧
      ls.flatMap pySplit = pySplit text := by
  have hW : 1 ≤ (width - 5).toNat := by omega
  have htok := pySplit_tokens text
  have hgood : ∀ w ∈ pySplit text, goodW (width - 5).toNat w := by
    intro w hw
    refine ⟨(htok w hw).1, ?_, fun c hc => (htok w hw).2 c hc⟩
    have := (hwords w hw).1
    omega
  have hchars : ∀ c ∈ pyJoin [' '] (pySplit text), isWS c = false ∨ c = ' ' := by
    intro c hc
    rcases pyJoin_chars (pySplit text) c hc with hsp | ⟨w, hw, hcw⟩
    · exact Or.inr hsp
    · exact Or.inl ((htok w hw).2 c hcw)
  have hrep1 : pyReplaceChar (pyJoin [' '] (pySplit text)) '\n' ' ' =
      pyJoin [' '] (pySplit text) := by
    refine pyReplaceChar_id _ _ _ ?_
    intro c hc
    rcases hchars c hc with hws | hsp
    · by_cases he : c = '\n'
      · rw [he] at hws; exact absurd hws (by decide)
      · simp [he]
    · simp [hsp]
  have hrep2 : pyReplaceChar (pyJoin [' '] (pySplit text)) '\t' ' ' =
      pyJoin [' '] (pySplit text) := by
    refine pyReplaceChar_id _ _ _ ?_
    intro c hc
    rcases hchars c hc with hws | hsp
    · by_cases he : c = '\t'
      · rw [he] at hws; exact absurd hws (by decide)
      · simp [he]
    · simp [hsp]
  have hmunge : mungeWhitespace (pyJoin [' '] (pySplit text)) =
      pyJoin [' '] (pySplit text) := munge_id _ hchars
  have hsplit : splitChunks (pyJoin [' '] (pySplit text)) =
      interleaveSp (pySplit text) := by
    unfold splitChunks
    refine splitGo_join (pySplit text) ?_ _ [] ?_
    · intro w hw
      exact ⟨(htok w hw).1, fun c hc => ⟨(htok w hw).2 c hc, (hwords w hw).2 c hc⟩⟩
    · have := pyJoin_length_ge (pySplit text) (fun w hw => (htok w hw).1)
      omega
  unfold format_data
  show ∃ ls,
    pyWrap (pyReplaceChar (pyReplaceChar (pyJoin [' '] (pySplit text)) '\n' ' ')
      '\t' ' ') (width - 5) = Except.ok ls ∧ ls.flatMap pySplit = pySplit text
  rw [hrep1, hrep2]
  rw [pyWrap_ok _ _ (by omega)]
  rw [hmunge, hsplit]
  have hfuel : (pySplit text).length <
      (interleaveSp (pySplit text)).length +
        ((interleaveSp (pySplit text)).map List.length).sum + 1 := by
    have := interleaveSp_length_ge (pySplit text)
    omega
  obtain ⟨res, hres, hflat⟩ :=
    wrapGo_inter (width - 5).toNat hW
      ((interleaveSp (pySplit text)).length +
        ((interleaveSp (pySplit text)).map List.length).sum + 1)
      (pySplit text) [] false hgood (by simp) hfuel
  simp only [Bool.false_eq_true, if_false, List.nil_append, List.reverse_nil] at hres
  exact ⟨res, by rw [hres], hflat⟩

/-- **C3** witness: `wrap("alpha beta", 11)` (wrap width 6) keeps both
words whole. -/
theorem c3_wrap_word_boundaries_witness :
    ∃ ls, format_data (("alpha beta").data) 11 = Except.ok ls ∧
      ls.flatMap pySplit = pySplit (("alpha beta").data) :=
  c3_wrap_word_boundaries (("alpha beta").data) 11 (by decide) (by decide)

/-- **C3** counterexample: `wrap("aaaaaaaa", 8)` (wrap width 3) splits the
single word `aaaaaaaa` across three lines, and `wrap("x aaa-bbb", 12)`
(wrap width 7) splits the word `aaa-bbb` — 7 characters, which fits the
width — after its hyphen; in both cases re-splitting the output lines does
not recover the input words, so words *are* split across lines. -/
theorem c3_wrap_counterexample :
    format_data (("aaaaaaaa").data) 8 =
      Except.ok [("aaa").data, ("aaa").data, ("aa").data] ∧
    pySplit (("aaaaaaaa").data) = [("aaaaaaaa").data] ∧
    format_data (("x aaa-bbb").data) 12 =
      Except.ok [("x aaa-").data, ("bbb").data] ∧
    pySplit (("x aaa-bbb").data) = [("x").data, ("aaa-bbb").data] ∧
    [("aaa").data, ("aaa").data, ("aa").data].flatMap pySplit ≠
      pySplit (("aaaaaaaa").data) ∧
    [("x aaa-").data, ("bbb").data].flatMap pySplit ≠
      pySplit (("x aaa-bbb").data) := by
  refine ⟨rfl, rfl, rfl, rfl, by decide, by decide⟩

end Flashcards

